import Mathlib

/-!
# Verification of the beat-planner circle-covering and routing engine

Shallow embedding of `territory_manager.py` (class `TerritoryManager`).

Modelling conventions:

* A merchant row of the input table is a `Merchant` record (`merchant_code`,
  `merchant_latitude`, `merchant_longitude`); coordinates are rationals.
* The haversine distance (`haversine_distance` and
  `_calculate_distances_vectorized` in the source) evaluates transcendental
  functions on floats.  Every algorithm of the source uses the distance only
  through comparisons, so the embedding is parameterised by an arbitrary
  distance function `GeoDist` taking `(lat1, lon1, lat2, lon2)` to meters; all
  theorems below are proved for every such function, hence in particular for
  the haversine distance.
* `_find_optimal_center_fast` draws random samples (`np.random.choice`); it is
  modelled as an arbitrary center-selection function parameter, so the
  theorems quantify over every possible behaviour of the sampler.
* Python `while` loops are modelled by structural recursion on a fuel
  argument; the fuel is instantiated so that it provably never runs out
  (each iteration strictly shrinks the remaining pool).
-/

/-- One row of the merchant table: `merchant_code`, `merchant_latitude`,
`merchant_longitude`.  Codes are the point ids. -/
structure Merchant where
  code : String
  lat : ℚ
  lon : ℚ
deriving DecidableEq, Inhabited

/-- Abstract distance function, `(lat1, lon1, lat2, lon2) ↦ meters`,
standing for the haversine formula of the source. -/
abbrev GeoDist := ℚ → ℚ → ℚ → ℚ → ℚ

/-- Abstract center selector standing for `_find_optimal_center_fast`
(which is randomized via `np.random.choice`): from a non-empty pool of
merchants it produces a candidate circle center `(lat, lon)`. -/
abbrev CenterSelector := List Merchant → ℚ × ℚ

/-- `np.argmin`: the first element of the list attaining the minimum of `f`
(numpy's argmin returns the first occurrence of the minimum). -/
def argminFirst [Inhabited α] (f : α → ℚ) : List α → α
  | [] => default
  | [x] => x
  | x :: y :: ys =>
    let z := argminFirst f (y :: ys)
    if f z < f x then z else x

theorem argminFirst_mem [Inhabited α] (f : α → ℚ) (l : List α) (h : l ≠ []) :
    argminFirst f l ∈ l := by
  induction l with
  | nil => simp at h
  | cons x xs ih =>
    cases xs with
    | nil => simp [argminFirst]
    | cons y ys =>
      simp only [argminFirst]
      split
      · exact List.mem_cons_of_mem _ (ih (by simp))
      · exact List.mem_cons_self _ _

theorem argminFirst_le [Inhabited α] (f : α → ℚ) (l : List α) :
    ∀ x ∈ l, f (argminFirst f l) ≤ f x := by
  induction l with
  | nil => intro x hx; simp at hx
  | cons x xs ih =>
    cases xs with
    | nil =>
      intro z hz
      rcases List.mem_singleton.mp hz with rfl
      simp [argminFirst]
    | cons y ys =>
      intro z hz
      simp only [argminFirst]
      rcases List.mem_cons.mp hz with rfl | hz'
      · split
        · exact le_of_lt (by assumption)
        · exact le_refl _
      · have hle := ih z hz'
        split
        · exact hle
        · exact le_trans (le_of_not_lt (by assumption)) hle

/-- Lexicographic comparison on `(input position, element)` pairs by
`(distance, position)`: this is the deterministic reading of
`np.argsort(distances)` with ties between equal distances broken by the
input order (stable argsort). -/
def distLexLe (f : α → ℚ) (p q : Nat × α) : Bool :=
  decide (f p.2 < f q.2 ∨ (f p.2 = f q.2 ∧ p.1 ≤ q.1))

theorem distLexLe_trans (f : α → ℚ) (a b c : Nat × α) :
    distLexLe f a b = true → distLexLe f b c = true → distLexLe f a c = true := by
  simp only [distLexLe, decide_eq_true_eq]
  rintro (h1 | ⟨h1, h1'⟩) (h2 | ⟨h2, h2'⟩)
  · exact Or.inl (lt_trans h1 h2)
  · exact Or.inl (h2 ▸ h1)
  · exact Or.inl (h1 ▸ h2)
  · exact Or.inr ⟨h1.trans h2, le_trans h1' h2'⟩

theorem distLexLe_total (f : α → ℚ) (a b : Nat × α) :
    (distLexLe f a b || distLexLe f b a) = true := by
  simp only [distLexLe, Bool.or_eq_true, decide_eq_true_eq]
  rcases lt_trichotomy (f a.2) (f b.2) with h | h | h
  · exact Or.inl (Or.inl h)
  · rcases Nat.le_total a.1 b.1 with h' | h'
    · exact Or.inl (Or.inr ⟨h, h'⟩)
    · exact Or.inr (Or.inr ⟨h.symm, h'⟩)
  · exact Or.inr (Or.inl h)

/-- `_get_merchants_in_circle_fast(merchant_data, center_lat, center_lon,
radius_meters, max_merchants)`: vectorized distances, then
  * empty input → empty list;
  * no merchant within radius → the single globally closest merchant
    (`np.argmin`, first occurrence);
  * at most `max_merchants` within radius → all of them, in input order;
  * more than `max_merchants` within radius → the `max_merchants` closest
    (`np.argsort(radius_distances)[:max_merchants]`).

numpy's default argsort (quicksort) does not guarantee a tie order between
equal distances; this definition fixes one admissible deterministic
instance (a stable argsort, ties by input position) and is what the
covering-engine theorems use — they are insensitive to the tie order,
relying only on membership, distinctness and the length cap.  The tie
order itself is treated nondeterministically by
`get_merchants_in_circle_fast_sorter` below. -/
def get_merchants_in_circle_fast (dist : GeoDist) (merchant_data : List Merchant)
    (center_lat center_lon radius_meters : ℚ) (max_merchants : Nat) : List String :=
  if merchant_data = [] then []
  else
    let distOf : Merchant → ℚ := fun m => dist m.lat m.lon center_lat center_lon
    let within := merchant_data.filter (fun m => distOf m ≤ radius_meters)
    if within = [] then
      [(argminFirst distOf merchant_data).code]
    else if within.length ≤ max_merchants then
      within.map (·.code)
    else
      (((within.enum.mergeSort (distLexLe distOf)).take max_merchants).map
        (fun p => p.2.code))

/-- C5: if the point set is non-empty but no point lies within the radius of
the center, `_get_merchants_in_circle_fast` returns exactly one id: the code
of the globally closest point (first occurrence of the minimum distance), so
the query never returns an empty list for non-empty input. -/
theorem get_merchants_fast_zero_coverage (dist : GeoDist) (data : List Merchant)
    (clat clon radius : ℚ) (maxm : Nat)
    (hne : data ≠ [])
    (hnone : ∀ m ∈ data, ¬ dist m.lat m.lon clat clon ≤ radius) :
    get_merchants_in_circle_fast dist data clat clon radius maxm
        = [(argminFirst (fun m => dist m.lat m.lon clat clon) data).code]
      ∧ argminFirst (fun m => dist m.lat m.lon clat clon) data ∈ data
      ∧ (∀ m ∈ data,
          dist (argminFirst (fun m => dist m.lat m.lon clat clon) data).lat
               (argminFirst (fun m => dist m.lat m.lon clat clon) data).lon clat clon
            ≤ dist m.lat m.lon clat clon)
      ∧ (get_merchants_in_circle_fast dist data clat clon radius maxm).length = 1 := by
  have hfilter : data.filter
      (fun m => decide (dist m.lat m.lon clat clon ≤ radius)) = [] := by
    rw [List.filter_eq_nil_iff]
    intro m hm
    simpa using hnone m hm
  have hmain : get_merchants_in_circle_fast dist data clat clon radius maxm
      = [(argminFirst (fun m => dist m.lat m.lon clat clon) data).code] := by
    unfold get_merchants_in_circle_fast
    rw [if_neg hne]
    simp [hfilter]
  refine ⟨hmain, argminFirst_mem _ _ hne, ?_, by rw [hmain]; rfl⟩
  intro m hm
  exact argminFirst_le (fun m => dist m.lat m.lon clat clon) data m hm

/-- Witness for `get_merchants_fast_zero_coverage`: a concrete two-point set
where no point is within radius 1 of the origin. -/
theorem get_merchants_fast_zero_coverage_witness :
    get_merchants_in_circle_fast (fun la lo ca co => (la - ca) * (la - ca) + (lo - co) * (lo - co))
        [⟨"a", 5, 0⟩, ⟨"b", 3, 0⟩] 0 0 1 7 = ["b"] := by
  have h := get_merchants_fast_zero_coverage
    (fun la lo ca co => (la - ca) * (la - ca) + (lo - co) * (lo - co))
    [⟨"a", 5, 0⟩, ⟨"b", 3, 0⟩] 0 0 1 7 (by simp)
    (by
      intro m hm
      rcases List.mem_cons.mp hm with rfl | hm'
      · norm_num
      rcases List.mem_cons.mp hm' with rfl | hm''
      · norm_num
      · simp at hm'')
  rw [h.1]
  norm_num [argminFirst]

/-- What `np.argsort` guarantees about its output and nothing more: the
result is a permutation of the input, ordered by non-decreasing key.  The
order among entries with equal keys is implementation-defined (numpy's
default quicksort is not stable). -/
def ValidArgsort (f : Merchant → ℚ) (en s : List (Nat × Merchant)) : Prop :=
  s.Perm en ∧ s.Pairwise (fun p q => f p.2 ≤ f q.2)

/-- `_get_merchants_in_circle_fast` with the over-capacity branch's
`np.argsort` (source line 518) left nondeterministic: `sorter` stands for
whatever permutation numpy's argsort produces from the distance key.
Identical to `get_merchants_in_circle_fast` except that the sort is a
parameter; theorems about the capped branch assume only `ValidArgsort` of
the sorter's output. -/
def get_merchants_in_circle_fast_sorter
    (sorter : (Merchant → ℚ) → List (Nat × Merchant) → List (Nat × Merchant))
    (dist : GeoDist) (merchant_data : List Merchant)
    (center_lat center_lon radius_meters : ℚ) (max_merchants : Nat) :
    List String :=
  if merchant_data = [] then []
  else
    let distOf : Merchant → ℚ := fun m => dist m.lat m.lon center_lat center_lon
    let within := merchant_data.filter (fun m => distOf m ≤ radius_meters)
    if within = [] then
      [(argminFirst distOf merchant_data).code]
    else if within.length ≤ max_merchants then
      within.map (·.code)
    else
      (((sorter distOf within.enum).take max_merchants).map
        (fun p => p.2.code))

/-- The deterministic model is the stable-argsort instance of the
nondeterministic one. -/
theorem get_merchants_fast_is_sorter_instance (dist : GeoDist)
    (data : List Merchant) (clat clon radius : ℚ) (maxm : Nat) :
    get_merchants_in_circle_fast dist data clat clon radius maxm
      = get_merchants_in_circle_fast_sorter
          (fun f l => l.mergeSort (distLexLe f)) dist data clat clon radius
          maxm := rfl

/-- The stable argsort used by the deterministic model is one admissible
argsort behaviour. -/
theorem mergeSort_validArgsort (f : Merchant → ℚ) (en : List (Nat × Merchant)) :
    ValidArgsort f en (en.mergeSort (distLexLe f)) := by
  refine ⟨List.mergeSort_perm _ _, ?_⟩
  have h := List.sorted_mergeSort (distLexLe_trans f) (distLexLe_total f) en
  refine h.imp ?_
  intro a b hab
  rcases of_decide_eq_true hab with h' | ⟨h', -⟩
  · exact le_of_lt h'
  · exact le_of_eq h'

/-- C4 counterexample: the claimed input-order tie-breaking is not a
property of the program, because `np.argsort`'s default quicksort leaves
the order of equal distances unspecified.  Three in-radius points a, b, c
at distances 0, 1, 1 (b before c in the input), capacity 2: the sort
output [(0,a), (2,c), (1,b)] is admissible — a permutation of the
enumerated within-radius list, non-decreasing in distance — yet the query
then returns ["a", "c"]: the later-input point c is selected and the
equal-distance earlier-input point b is dropped, contradicting "ties
between equal distances broken by input order". -/
theorem get_merchants_fast_capped_tie_counterexample :
    (([⟨"a", 0, 0⟩, ⟨"b", 1, 1⟩, ⟨"c", 1, 2⟩] : List Merchant).filter
        (fun m => decide ((fun la _ _ _ => la : GeoDist) m.lat m.lon 0 0 ≤ 10)))
      = [⟨"a", 0, 0⟩, ⟨"b", 1, 1⟩, ⟨"c", 1, 2⟩]
    ∧ ValidArgsort (fun m => m.lat)
        (([⟨"a", 0, 0⟩, ⟨"b", 1, 1⟩, ⟨"c", 1, 2⟩] : List Merchant).enum)
        [(0, ⟨"a", 0, 0⟩), (2, ⟨"c", 1, 2⟩), (1, ⟨"b", 1, 1⟩)]
    ∧ get_merchants_in_circle_fast_sorter
        (fun _ _ => [(0, ⟨"a", 0, 0⟩), (2, ⟨"c", 1, 2⟩), (1, ⟨"b", 1, 1⟩)])
        (fun la _ _ _ => la) [⟨"a", 0, 0⟩, ⟨"b", 1, 1⟩, ⟨"c", 1, 2⟩] 0 0 10 2
      = ["a", "c"]
    ∧ ¬ "b" ∈ get_merchants_in_circle_fast_sorter
        (fun _ _ => [(0, ⟨"a", 0, 0⟩), (2, ⟨"c", 1, 2⟩), (1, ⟨"b", 1, 1⟩)])
        (fun la _ _ _ => la) [⟨"a", 0, 0⟩, ⟨"b", 1, 1⟩, ⟨"c", 1, 2⟩] 0 0 10 2
    ∧ (⟨"b", 1, 1⟩ : Merchant).lat = (⟨"c", 1, 2⟩ : Merchant).lat := by
  refine ⟨by decide, ⟨by decide, by decide⟩, by decide, by decide, by decide⟩

/-- C4 amended: when more than `max_merchants` points lie within the
radius, for every admissible argsort behaviour the result consists of the
codes of exactly `max_merchants` within-radius points, each at a distance
less than or equal to every non-selected within-radius point's distance —
the `max_merchants` closest, with ties between equal distances resolved in
an implementation-defined order rather than by input order. -/
theorem get_merchants_fast_capped_sorter
    (sorter : (Merchant → ℚ) → List (Nat × Merchant) → List (Nat × Merchant))
    (dist : GeoDist) (data : List Merchant)
    (clat clon radius : ℚ) (maxm : Nat)
    (hover : maxm <
      (data.filter (fun m => decide (dist m.lat m.lon clat clon ≤ radius))).length)
    (hvalid : ValidArgsort (fun m => dist m.lat m.lon clat clon)
      (data.filter (fun m => decide (dist m.lat m.lon clat clon ≤ radius))).enum
      (sorter (fun m => dist m.lat m.lon clat clon)
        (data.filter (fun m => decide (dist m.lat m.lon clat clon ≤ radius))).enum)) :
    ∃ T : List (Nat × Merchant),
      get_merchants_in_circle_fast_sorter sorter dist data clat clon radius maxm
          = T.map (fun p => p.2.code)
      ∧ T.length = maxm
      ∧ (∀ p ∈ T,
          p ∈ (data.filter (fun m => decide (dist m.lat m.lon clat clon ≤ radius))).enum)
      ∧ (∀ p ∈ T,
          ∀ q ∈ (data.filter (fun m => decide (dist m.lat m.lon clat clon ≤ radius))).enum,
            q ∉ T →
              dist p.2.lat p.2.lon clat clon ≤ dist q.2.lat q.2.lon clat clon) := by
  set distOf : Merchant → ℚ := fun m => dist m.lat m.lon clat clon with hdistOf
  set within := data.filter (fun m => decide (distOf m ≤ radius)) with hwithin
  have hwne : within ≠ [] := by
    intro h
    rw [h] at hover
    simp at hover
  have hdne : data ≠ [] := by
    intro h
    apply hwne
    rw [hwithin, h]
    rfl
  set s := sorter distOf within.enum with hs
  have hperm : s.Perm within.enum := hvalid.1
  have hsorted : s.Pairwise (fun p q => distOf p.2 ≤ distOf q.2) := hvalid.2
  have hlen : s.length = within.length := by
    rw [hperm.length_eq, List.enum_length]
  refine ⟨s.take maxm, ?_, ?_, ?_, ?_⟩
  · unfold get_merchants_in_circle_fast_sorter
    rw [if_neg hdne]
    rw [if_neg (by rw [← hwithin]; exact hwne), if_neg (by rw [← hwithin]; omega)]
  · rw [List.length_take, hlen]
    omega
  · intro p hp
    exact hperm.mem_iff.mp (List.mem_of_mem_take hp)
  · intro p hp q hq hqT
    have hqs : q ∈ s := hperm.mem_iff.mpr hq
    have hqapp : q ∈ s.take maxm ++ s.drop maxm := by
      rw [List.take_append_drop]
      exact hqs
    have hqdrop : q ∈ s.drop maxm := by
      rcases List.mem_append.mp hqapp with h | h
      · exact absurd h hqT
      · exact h
    have hsorted' : List.Pairwise (fun p q => distOf p.2 ≤ distOf q.2)
        (s.take maxm ++ s.drop maxm) := by
      rw [List.take_append_drop]
      exact hsorted
    exact (List.pairwise_append.mp hsorted').2.2 p hp q hqdrop

/-- Witness for `get_merchants_fast_capped_sorter`: three points at
strictly increasing distances, capacity 2, with a concrete admissible
sort output. -/
theorem get_merchants_fast_capped_sorter_witness :
    2 < (([⟨"a", 0, 0⟩, ⟨"b", 1, 0⟩, ⟨"c", 2, 0⟩] : List Merchant).filter
        (fun m => decide ((fun la _ _ _ => la : GeoDist) m.lat m.lon 0 0 ≤ 10))).length
    ∧ ValidArgsort (fun m => (fun la _ _ _ => la : GeoDist) m.lat m.lon 0 0)
        (([⟨"a", 0, 0⟩, ⟨"b", 1, 0⟩, ⟨"c", 2, 0⟩] : List Merchant).filter
          (fun m => decide ((fun la _ _ _ => la : GeoDist) m.lat m.lon 0 0 ≤ 10))).enum
        [(0, ⟨"a", 0, 0⟩), (1, ⟨"b", 1, 0⟩), (2, ⟨"c", 2, 0⟩)]
    ∧ (∃ T : List (Nat × Merchant),
        get_merchants_in_circle_fast_sorter
            (fun _ _ => [(0, ⟨"a", 0, 0⟩), (1, ⟨"b", 1, 0⟩), (2, ⟨"c", 2, 0⟩)])
            (fun la _ _ _ => la) [⟨"a", 0, 0⟩, ⟨"b", 1, 0⟩, ⟨"c", 2, 0⟩] 0 0 10 2
            = T.map (fun p => p.2.code)
        ∧ T.length = 2
        ∧ (∀ p ∈ T,
            p ∈ (([⟨"a", 0, 0⟩, ⟨"b", 1, 0⟩, ⟨"c", 2, 0⟩] : List Merchant).filter
              (fun m => decide ((fun la _ _ _ => la : GeoDist) m.lat m.lon 0 0 ≤ 10))).enum)
        ∧ (∀ p ∈ T,
            ∀ q ∈ (([⟨"a", 0, 0⟩, ⟨"b", 1, 0⟩, ⟨"c", 2, 0⟩] : List Merchant).filter
              (fun m => decide ((fun la _ _ _ => la : GeoDist) m.lat m.lon 0 0 ≤ 10))).enum,
              q ∉ T →
                (fun la _ _ _ => la : GeoDist) p.2.lat p.2.lon 0 0
                  ≤ (fun la _ _ _ => la : GeoDist) q.2.lat q.2.lon 0 0)) :=
  ⟨by decide, ⟨by decide, by decide⟩,
    get_merchants_fast_capped_sorter
      (fun _ _ => [(0, ⟨"a", 0, 0⟩), (1, ⟨"b", 1, 0⟩), (2, ⟨"c", 2, 0⟩)])
      (fun la _ _ _ => la) [⟨"a", 0, 0⟩, ⟨"b", 1, 0⟩, ⟨"c", 2, 0⟩] 0 0 10 2
      (by decide) ⟨by decide, by decide⟩⟩

/-- A circle record as built by `_create_circles_optimized` /
`create_auto_recommended_circles`. -/
structure BeatCircle where
  name : String
  center_lat : ℚ
  center_lon : ℚ
  radius : ℚ
  color : String
  merchants : List String
  merchant_count : Nat
  executive : String
deriving DecidableEq, Inhabited

/-- The flush loop entered when the safety bound fires (source lines
403-421): one single-merchant circle per remaining row, sequential names,
the caller's radius. -/
def flushSingles (radius : ℚ) (color executive : String) :
    List Merchant → Nat → List BeatCircle
  | [], _ => []
  | m :: rest, circleCount =>
      { name := toString (circleCount + 1), center_lat := m.lat, center_lon := m.lon,
        radius := radius, color := color, merchants := [m.code], merchant_count := 1,
        executive := executive }
        :: flushSingles radius color executive rest (circleCount + 1)

/-- The `while len(remaining_data) > 0` loop of `_create_circles_optimized`,
by recursion on a fuel argument (the fuel is instantiated with the pool size,
which suffices because every iteration removes at least one merchant).

Both the `len(remaining) <= max` branch and the `else` branch select a
center and run the capped membership query with the fixed target radius;
the `else` branch additionally falls back to the first remaining merchant
when the query is empty (source lines 363-369), and both feed the defensive
fallback of lines 373-378.  The constructed circle always has at least one
merchant, so the `else: break` emergency exit of line 398-400 is
unreachable.  After appending the circle and filtering out the assigned
codes, the safety check `circle_count > 100` flushes all still-remaining
merchants as single-merchant circles.

`coverSelect` is the member/center selection of one iteration (source lines
335-378): select a center, run the capped membership query with the fixed
target radius, and apply the two defensive first-merchant fallbacks; it
returns the selected codes and the (possibly reset) center. -/
def coverSelect (dist : GeoDist) (selectCenter : CenterSelector) (radius : ℚ)
    (maxPer : Nat) (first : Merchant) (rest : List Merchant) :
    List String × ℚ × ℚ :=
  let remaining := first :: rest
  let c0 := selectCenter remaining
  let mic0 := get_merchants_in_circle_fast dist remaining c0.1 c0.2 radius maxPer
  let st1 : List String × ℚ × ℚ :=
    if remaining.length ≤ maxPer then (mic0, c0.1, c0.2)
    else if mic0 = [] then ([first.code], first.lat, first.lon)
    else (mic0, c0.1, c0.2)
  if st1.1 = [] then ([first.code], first.lat, first.lon) else st1

def coverLoop (dist : GeoDist) (selectCenter : CenterSelector) (radius : ℚ)
    (maxPer : Nat) (color executive : String) :
    Nat → List Merchant → Nat → List BeatCircle
  | 0, _, _ => []
  | _ + 1, [], _ => []
  | fuel + 1, first :: rest, circleCount =>
    let st2 := coverSelect dist selectCenter radius maxPer first rest
    let circle : BeatCircle :=
      { name := toString (circleCount + 1), center_lat := st2.2.1,
        center_lon := st2.2.2, radius := radius, color := color,
        merchants := st2.1, merchant_count := st2.1.length,
        executive := executive }
    let remaining2 := (first :: rest).filter (fun m => !(st2.1.contains m.code))
    if circleCount + 1 > 100 then
      circle :: flushSingles radius color executive remaining2 (circleCount + 1)
    else
      circle :: coverLoop dist selectCenter radius maxPer color executive
        fuel remaining2 (circleCount + 1)

/-- `_create_circles_optimized(merchant_data, radius_meters,
max_merchants_per_circle, color, executive)`. -/
def create_circles_optimized (dist : GeoDist) (selectCenter : CenterSelector)
    (merchant_data : List Merchant) (radius_meters : ℚ)
    (max_merchants_per_circle : Nat) (color executive : String) : List BeatCircle :=
  coverLoop dist selectCenter radius_meters max_merchants_per_circle color
    executive merchant_data.length merchant_data 0

/-- `create_auto_recommended_circles(merchant_data, radius_meters,
max_merchants_per_circle, base_name, color, executive)`; `base_name` is
accepted but unused by the optimized path, exactly as in the source. -/
def create_auto_recommended_circles (dist : GeoDist) (selectCenter : CenterSelector)
    (merchant_data : List Merchant) (radius_meters : ℚ)
    (max_merchants_per_circle : Nat) (_base_name color executive : String) :
    List BeatCircle :=
  if merchant_data.length = 0 then []
  else create_circles_optimized dist selectCenter merchant_data radius_meters
    max_merchants_per_circle color executive

theorem mem_snd_of_mem_enum {l : List α} {p : Nat × α} (hp : p ∈ l.enum) :
    p.2 ∈ l := by
  have := List.mem_map_of_mem Prod.snd hp
  rwa [List.enum_map_snd] at this

/-- Every code returned by the capped query is the code of some input row. -/
theorem get_merchants_fast_codes (dist : GeoDist) (data : List Merchant)
    (clat clon radius : ℚ) (maxm : Nat) :
    ∀ c ∈ get_merchants_in_circle_fast dist data clat clon radius maxm,
      ∃ m ∈ data, m.code = c := by
  intro c hc
  unfold get_merchants_in_circle_fast at hc
  split at hc
  · simp at hc
  · next hdne =>
    dsimp only at hc
    split at hc
    · next hw =>
      rcases List.mem_singleton.mp hc with rfl
      exact ⟨_, argminFirst_mem _ _ hdne, rfl⟩
    · split at hc
      · rcases List.mem_map.mp hc with ⟨m, hm, rfl⟩
        exact ⟨m, (List.mem_filter.mp hm).1, rfl⟩
      · rcases List.mem_map.mp hc with ⟨p, hp, rfl⟩
        have hps : p ∈ (data.filter
            (fun m => decide (dist m.lat m.lon clat clon ≤ radius))).enum :=
          (List.mergeSort_perm _ _).mem_iff.mp (List.mem_of_mem_take hp)
        have := mem_snd_of_mem_enum hps
        exact ⟨p.2, (List.mem_filter.mp this).1, rfl⟩

/-- If the input codes are distinct then the codes returned by the capped
query are distinct. -/
theorem get_merchants_fast_nodup (dist : GeoDist) (data : List Merchant)
    (clat clon radius : ℚ) (maxm : Nat)
    (hnd : (data.map Merchant.code).Nodup) :
    (get_merchants_in_circle_fast dist data clat clon radius maxm).Nodup := by
  unfold get_merchants_in_circle_fast
  split
  · exact List.nodup_nil
  · dsimp only
    split
    · exact List.nodup_singleton _
    · next hnotnil =>
      split
      · exact ((List.filter_sublist data).map Merchant.code).nodup hnd
      · set distOf : Merchant → ℚ := fun m => dist m.lat m.lon clat clon
        set within := data.filter (fun m => decide (distOf m ≤ radius)) with hwithin
        have hwnd : (within.map Merchant.code).Nodup :=
          ((List.filter_sublist data).map Merchant.code).nodup hnd
        set s := within.enum.mergeSort (distLexLe distOf) with hs
        have hmapeq : (s.map (fun p => p.2.code)).Perm (within.map Merchant.code) := by
          have h1 := ((List.mergeSort_perm within.enum (distLexLe distOf)).map
            (fun p : Nat × Merchant => p.2.code))
          have h2 : within.enum.map (fun p : Nat × Merchant => p.2.code)
              = within.map Merchant.code := by
            rw [show (fun p : Nat × Merchant => p.2.code)
              = Merchant.code ∘ Prod.snd from rfl, ← List.map_map,
              List.enum_map_snd]
          rw [← h2]
          exact h1
        have hsnd : (s.map (fun p => p.2.code)).Nodup :=
          hmapeq.nodup_iff.mpr hwnd
        exact (((List.take_sublist maxm s).map (fun p => p.2.code)).nodup hsnd)


/-- Capacity bound of the capped query: with capacity at least 1 the query
never returns more than that many codes. -/
theorem get_merchants_fast_length_le (dist : GeoDist) (data : List Merchant)
    (clat clon radius : ℚ) (maxm : Nat) (hk : 1 ≤ maxm) :
    (get_merchants_in_circle_fast dist data clat clon radius maxm).length ≤ maxm := by
  unfold get_merchants_in_circle_fast
  split
  · simp
  · dsimp only
    split
    · simpa using hk
    · split
      · next h => simpa using h
      · rw [List.length_map, List.length_take]
        exact le_trans (Nat.min_le_left _ _) (le_refl _)

theorem coverSelect_cases (dist : GeoDist) (sel : CenterSelector) (radius : ℚ)
    (maxPer : Nat) (first : Merchant) (rest : List Merchant) :
    (coverSelect dist sel radius maxPer first rest).1 = [first.code]
    ∨ ((coverSelect dist sel radius maxPer first rest).1
          = get_merchants_in_circle_fast dist (first :: rest)
              (sel (first :: rest)).1 (sel (first :: rest)).2 radius maxPer
        ∧ (coverSelect dist sel radius maxPer first rest).1 ≠ []) := by
  unfold coverSelect
  dsimp only
  split
  · split
    · exact Or.inl rfl
    · next h => exact Or.inr ⟨rfl, h⟩
  · split
    · next h =>
      left
      split <;> rfl
    · next h =>
      right
      exact ⟨rfl, h⟩

theorem coverSelect_ne_nil (dist : GeoDist) (sel : CenterSelector) (radius : ℚ)
    (maxPer : Nat) (first : Merchant) (rest : List Merchant) :
    (coverSelect dist sel radius maxPer first rest).1 ≠ [] := by
  rcases coverSelect_cases dist sel radius maxPer first rest with h | ⟨-, h⟩
  · rw [h]
    simp
  · exact h

theorem coverSelect_codes (dist : GeoDist) (sel : CenterSelector) (radius : ℚ)
    (maxPer : Nat) (first : Merchant) (rest : List Merchant) :
    ∀ c ∈ (coverSelect dist sel radius maxPer first rest).1,
      ∃ m ∈ first :: rest, m.code = c := by
  intro c hc
  rcases coverSelect_cases dist sel radius maxPer first rest with h | ⟨h, -⟩ <;>
    rw [h] at hc
  · rcases List.mem_singleton.mp hc with rfl
    exact ⟨first, List.mem_cons_self _ _, rfl⟩
  · exact get_merchants_fast_codes _ _ _ _ _ _ c hc

theorem coverSelect_nodup (dist : GeoDist) (sel : CenterSelector) (radius : ℚ)
    (maxPer : Nat) (first : Merchant) (rest : List Merchant)
    (hnd : ((first :: rest).map Merchant.code).Nodup) :
    (coverSelect dist sel radius maxPer first rest).1.Nodup := by
  rcases coverSelect_cases dist sel radius maxPer first rest with h | ⟨h, -⟩ <;>
    rw [h]
  · exact List.nodup_singleton _
  · exact get_merchants_fast_nodup _ _ _ _ _ _ hnd

theorem coverSelect_length_le (dist : GeoDist) (sel : CenterSelector) (radius : ℚ)
    (maxPer : Nat) (first : Merchant) (rest : List Merchant) (hk : 1 ≤ maxPer) :
    (coverSelect dist sel radius maxPer first rest).1.length ≤ maxPer := by
  rcases coverSelect_cases dist sel radius maxPer first rest with h | ⟨h, -⟩ <;>
    rw [h]
  · simpa using hk
  · exact get_merchants_fast_length_le _ _ _ _ _ _ hk

/-- Removing the rows whose codes were selected removes exactly the selected
codes (assuming distinct input codes). -/
theorem perm_filter_contains {l : List Merchant} {s : List String}
    (hl : (l.map Merchant.code).Nodup) (hs : s.Nodup)
    (hsub : ∀ c ∈ s, ∃ m ∈ l, m.code = c) :
    ((l.filter (fun m => s.contains m.code)).map Merchant.code).Perm s := by
  have h1 : (l.filter (fun m => s.contains m.code)).map Merchant.code
      = (l.map Merchant.code).filter (fun c => s.contains c) := by
    rw [List.filter_map]
    rfl
  rw [h1]
  apply List.perm_of_nodup_nodup_toFinset_eq
  · exact ((l.map Merchant.code).filter_sublist).nodup hl
  · exact hs
  · ext c
    simp only [List.mem_toFinset, List.mem_filter, List.elem_iff]
    constructor
    · rintro ⟨-, h⟩
      exact h
    · intro h
      refine ⟨?_, h⟩
      rcases hsub c h with ⟨m, hm, rfl⟩
      exact List.mem_map_of_mem Merchant.code hm

theorem flushSingles_flatten (radius : ℚ) (color executive : String)
    (l : List Merchant) (n : Nat) :
    ((flushSingles radius color executive l n).map BeatCircle.merchants).flatten
      = l.map Merchant.code := by
  induction l generalizing n with
  | nil => rfl
  | cons m rest ih => simp [flushSingles, ih]

theorem flushSingles_fields (radius : ℚ) (color executive : String)
    (l : List Merchant) (n : Nat) :
    ∀ c ∈ flushSingles radius color executive l n,
      c.radius = radius ∧ c.merchant_count = 1 ∧ c.merchants.length = 1 := by
  induction l generalizing n with
  | nil => intro c hc; simp [flushSingles] at hc
  | cons m rest ih =>
    intro c hc
    rcases List.mem_cons.mp hc with rfl | hc'
    · exact ⟨rfl, rfl, rfl⟩
    · exact ih _ c hc'

/-- One-iteration bookkeeping: removing the selected codes strictly shrinks
the pool. -/
theorem coverLoop_shrinks (dist : GeoDist) (sel : CenterSelector) (radius : ℚ)
    (maxPer : Nat) (first : Merchant) (rest : List Merchant) :
    ((first :: rest).filter
        (fun m => !((coverSelect dist sel radius maxPer first rest).1.contains m.code))).length
      < (first :: rest).length := by
  rw [List.length_filter_lt_length_iff_exists]
  have hne := coverSelect_ne_nil dist sel radius maxPer first rest
  rcases List.exists_mem_of_ne_nil _ hne with ⟨c, hc⟩
  rcases coverSelect_codes dist sel radius maxPer first rest c hc with ⟨m, hm, rfl⟩
  refine ⟨m, hm, ?_⟩
  simpa using hc

/-- Main loop invariant for C1: the concatenation of all member lists of the
produced circles is a permutation of the codes of the remaining pool,
provided the pool's codes are distinct and the fuel dominates the pool
size. -/
theorem coverLoop_flatten_perm (dist : GeoDist) (sel : CenterSelector)
    (radius : ℚ) (maxPer : Nat) (color executive : String) :
    ∀ (fuel : Nat) (remaining : List Merchant) (count : Nat),
      remaining.length ≤ fuel →
      (remaining.map Merchant.code).Nodup →
      (((coverLoop dist sel radius maxPer color executive fuel remaining count).map
          BeatCircle.merchants).flatten).Perm (remaining.map Merchant.code) := by
  intro fuel
  induction fuel with
  | zero =>
    intro remaining count hle _
    rw [List.length_eq_zero.mp (Nat.le_zero.mp hle)]
    exact List.Perm.refl _
  | succ fuel ih =>
    intro remaining count hle hnd
    cases remaining with
    | nil => exact List.Perm.refl _
    | cons first rest =>
      rw [coverLoop]
      set s := (coverSelect dist sel radius maxPer first rest).1 with hsdef
      set remaining2 :=
        (first :: rest).filter (fun m => !(s.contains m.code)) with hrem2
      have hnd2 : (remaining2.map Merchant.code).Nodup := by
        have hmf : ((first :: rest).map Merchant.code).filter (fun c => !s.contains c)
            = (List.filter (fun m => !s.contains m.code) (first :: rest)).map
                Merchant.code := by
          rw [List.filter_map]
          rfl
        rw [hrem2, ← hmf]
        exact (((first :: rest).map Merchant.code).filter_sublist).nodup hnd
      have hremoved : (((first :: rest).filter
          (fun m => s.contains m.code)).map Merchant.code).Perm s :=
        perm_filter_contains hnd
          (coverSelect_nodup dist sel radius maxPer first rest hnd)
          (coverSelect_codes dist sel radius maxPer first rest)
      have hpart : (((first :: rest).filter (fun m => s.contains m.code)).map
            Merchant.code ++ remaining2.map Merchant.code).Perm
          ((first :: rest).map Merchant.code) := by
        rw [hrem2, ← List.map_append]
        exact (List.filter_append_perm _ _).map Merchant.code
      have hcombine : ∀ tail : List String,
          tail.Perm (remaining2.map Merchant.code) →
          (s ++ tail).Perm ((first :: rest).map Merchant.code) := by
        intro tail htail
        have h1 : (s ++ tail).Perm (s ++ remaining2.map Merchant.code) :=
          List.Perm.append_left s htail
        have h2 : (s ++ remaining2.map Merchant.code).Perm
            (((first :: rest).filter (fun m => s.contains m.code)).map Merchant.code
              ++ remaining2.map Merchant.code) :=
          List.Perm.append_right _ hremoved.symm
        exact h1.trans (h2.trans hpart)
      split
      · rw [List.map_cons, List.flatten_cons, flushSingles_flatten]
        exact hcombine _ (List.Perm.refl _)
      · rw [List.map_cons, List.flatten_cons]
        have hlt : remaining2.length < (first :: rest).length := by
          rw [hrem2, hsdef]
          exact coverLoop_shrinks dist sel radius maxPer first rest
        exact hcombine _ (ih remaining2 (count + 1) (by omega) hnd2)

/-- Every circle the loop emits (main iterations and flushed singletons
alike) carries exactly the caller's target radius. -/
theorem coverLoop_radius (dist : GeoDist) (sel : CenterSelector) (radius : ℚ)
    (maxPer : Nat) (color executive : String) :
    ∀ (fuel : Nat) (remaining : List Merchant) (count : Nat),
      ∀ c ∈ coverLoop dist sel radius maxPer color executive fuel remaining count,
        c.radius = radius := by
  intro fuel
  induction fuel with
  | zero => intro remaining count c hc; simp [coverLoop] at hc
  | succ fuel ih =>
    intro remaining count c hc
    cases remaining with
    | nil => simp [coverLoop] at hc
    | cons first rest =>
      rw [coverLoop] at hc
      split at hc
      · rcases List.mem_cons.mp hc with rfl | hc'
        · rfl
        · exact (flushSingles_fields _ _ _ _ _ c hc').1
      · rcases List.mem_cons.mp hc with rfl | hc'
        · rfl
        · exact ih _ _ c hc'

/-- Every circle the loop emits has a non-empty member list of size at most
the capacity (for capacity at least 1), and its stored count equals the
member-list length. -/
theorem coverLoop_capacity (dist : GeoDist) (sel : CenterSelector) (radius : ℚ)
    (maxPer : Nat) (color executive : String) (hk : 1 ≤ maxPer) :
    ∀ (fuel : Nat) (remaining : List Merchant) (count : Nat),
      ∀ c ∈ coverLoop dist sel radius maxPer color executive fuel remaining count,
        c.merchant_count ≤ maxPer ∧ 1 ≤ c.merchant_count
          ∧ c.merchant_count = c.merchants.length := by
  intro fuel
  induction fuel with
  | zero => intro remaining count c hc; simp [coverLoop] at hc
  | succ fuel ih =>
    intro remaining count c hc
    cases remaining with
    | nil => simp [coverLoop] at hc
    | cons first rest =>
      rw [coverLoop] at hc
      split at hc
      · rcases List.mem_cons.mp hc with rfl | hc'
        · refine ⟨coverSelect_length_le dist sel radius maxPer first rest hk, ?_, rfl⟩
          exact List.length_pos.mpr (coverSelect_ne_nil dist sel radius maxPer first rest)
        · rcases flushSingles_fields _ _ _ _ _ c hc' with ⟨-, h1, h2⟩
          exact ⟨by omega, by omega, by omega⟩
      · rcases List.mem_cons.mp hc with rfl | hc'
        · refine ⟨coverSelect_length_le dist sel radius maxPer first rest hk, ?_, rfl⟩
          exact List.length_pos.mpr (coverSelect_ne_nil dist sel radius maxPer first rest)
        · exact ih _ _ c hc'

/-- C1: coverage completeness.  For any input point set with distinct ids,
any distance function and any behaviour of the randomized center selector,
`create_auto_recommended_circles` returns circles whose member-id lists,
concatenated, are a permutation of the input ids (so their union is exactly
the input id set), and the member lists are pairwise disjoint (no id is
assigned to two circles of one invocation). -/
theorem cover_completeness (dist : GeoDist) (sel : CenterSelector)
    (data : List Merchant) (radius : ℚ) (maxPer : Nat)
    (bname color executive : String)
    (hnd : (data.map Merchant.code).Nodup) :
    (((create_auto_recommended_circles dist sel data radius maxPer bname color
          executive).map BeatCircle.merchants).flatten).Perm
        (data.map Merchant.code)
    ∧ List.Pairwise List.Disjoint
        ((create_auto_recommended_circles dist sel data radius maxPer bname color
          executive).map BeatCircle.merchants) := by
  have hperm : (((create_auto_recommended_circles dist sel data radius maxPer
      bname color executive).map BeatCircle.merchants).flatten).Perm
      (data.map Merchant.code) := by
    unfold create_auto_recommended_circles
    split
    · next h =>
      rw [List.length_eq_zero.mp h]
      exact List.Perm.refl _
    · exact coverLoop_flatten_perm dist sel radius maxPer color executive
        data.length data 0 (le_refl _) hnd
  refine ⟨hperm, ?_⟩
  have hflat : (((create_auto_recommended_circles dist sel data radius maxPer
      bname color executive).map BeatCircle.merchants).flatten).Nodup :=
    hperm.nodup_iff.mpr hnd
  exact (List.nodup_flatten.mp hflat).2

/-- Witness for `cover_completeness`: two distinct points, both within
radius of the selected center, capacity 5. -/
theorem cover_completeness_witness :
    ((([⟨"a", 0, 0⟩, ⟨"b", 1, 0⟩] : List Merchant).map Merchant.code).Nodup)
    ∧ ((((create_auto_recommended_circles (fun la _ _ _ => la) (fun _ => (0, 0))
          [⟨"a", 0, 0⟩, ⟨"b", 1, 0⟩] 10 5 "B" "red" "E1").map
            BeatCircle.merchants).flatten).Perm
        (([⟨"a", 0, 0⟩, ⟨"b", 1, 0⟩] : List Merchant).map Merchant.code)
      ∧ List.Pairwise List.Disjoint
          ((create_auto_recommended_circles (fun la _ _ _ => la) (fun _ => (0, 0))
            [⟨"a", 0, 0⟩, ⟨"b", 1, 0⟩] 10 5 "B" "red" "E1").map
              BeatCircle.merchants)) :=
  ⟨by decide,
    cover_completeness (fun la _ _ _ => la) (fun _ => (0, 0))
      [⟨"a", 0, 0⟩, ⟨"b", 1, 0⟩] 10 5 "B" "red" "E1" (by decide)⟩

/-- C2: capacity bound.  For capacity k ≥ 1, every circle returned by
`create_auto_recommended_circles` has `merchant_count ≤ k`; moreover the
count always equals the member-list length and is at least 1 (the
single-point fallback circles have exactly one member, which satisfies the
bound for any k ≥ 1). -/
theorem cover_capacity (dist : GeoDist) (sel : CenterSelector)
    (data : List Merchant) (radius : ℚ) (maxPer : Nat)
    (bname color executive : String) (hk : 1 ≤ maxPer) :
    ∀ c ∈ create_auto_recommended_circles dist sel data radius maxPer bname
        color executive,
      c.merchant_count ≤ maxPer ∧ 1 ≤ c.merchant_count
        ∧ c.merchant_count = c.merchants.length := by
  intro c hc
  unfold create_auto_recommended_circles at hc
  split at hc
  · simp at hc
  · exact coverLoop_capacity dist sel radius maxPer color executive hk
      data.length data 0 c hc

/-- Witness for `cover_capacity`: concrete two-point run with capacity 1;
the first emitted circle respects the bound. -/
theorem cover_capacity_witness :
    1 ≤ 1
    ∧ ((create_auto_recommended_circles (fun la _ _ _ => la) (fun _ => (0, 0))
          [⟨"a", 0, 0⟩, ⟨"b", 20, 0⟩] 10 1 "B" "red" "E1").getD 0 default)
        ∈ create_auto_recommended_circles (fun la _ _ _ => la) (fun _ => (0, 0))
          [⟨"a", 0, 0⟩, ⟨"b", 20, 0⟩] 10 1 "B" "red" "E1"
    ∧ (((create_auto_recommended_circles (fun la _ _ _ => la) (fun _ => (0, 0))
          [⟨"a", 0, 0⟩, ⟨"b", 20, 0⟩] 10 1 "B" "red" "E1").getD 0
            default).merchant_count ≤ 1
        ∧ 1 ≤ ((create_auto_recommended_circles (fun la _ _ _ => la)
            (fun _ => (0, 0)) [⟨"a", 0, 0⟩, ⟨"b", 20, 0⟩] 10 1 "B" "red"
              "E1").getD 0 default).merchant_count
        ∧ ((create_auto_recommended_circles (fun la _ _ _ => la) (fun _ => (0, 0))
            [⟨"a", 0, 0⟩, ⟨"b", 20, 0⟩] 10 1 "B" "red" "E1").getD 0
              default).merchant_count
          = ((create_auto_recommended_circles (fun la _ _ _ => la) (fun _ => (0, 0))
            [⟨"a", 0, 0⟩, ⟨"b", 20, 0⟩] 10 1 "B" "red" "E1").getD 0
              default).merchants.length) :=
  ⟨by decide, by decide,
    cover_capacity (fun la _ _ _ => la) (fun _ => (0, 0))
      [⟨"a", 0, 0⟩, ⟨"b", 20, 0⟩] 10 1 "B" "red" "E1" (by decide) _ (by decide)⟩

/-- C6: fixed-radius invariant.  Every circle returned by
`create_auto_recommended_circles` — tail-batch circles and post-safety-bound
flushed singletons included — has its radius field exactly equal to the
caller's target radius, for any capacity, distance function and center
selector. -/
theorem cover_fixed_radius (dist : GeoDist) (sel : CenterSelector)
    (data : List Merchant) (radius : ℚ) (maxPer : Nat)
    (bname color executive : String) :
    ∀ c ∈ create_auto_recommended_circles dist sel data radius maxPer bname
        color executive,
      c.radius = radius := by
  intro c hc
  unfold create_auto_recommended_circles at hc
  split at hc
  · simp at hc
  · exact coverLoop_radius dist sel radius maxPer color executive
      data.length data 0 c hc

/-- Witness for `cover_fixed_radius`: the first circle of a concrete run has
the target radius 10. -/
theorem cover_fixed_radius_witness :
    ((create_auto_recommended_circles (fun la _ _ _ => la) (fun _ => (0, 0))
          [⟨"a", 0, 0⟩, ⟨"b", 1, 0⟩] 10 5 "B" "red" "E1").getD 0 default)
        ∈ create_auto_recommended_circles (fun la _ _ _ => la) (fun _ => (0, 0))
          [⟨"a", 0, 0⟩, ⟨"b", 1, 0⟩] 10 5 "B" "red" "E1"
    ∧ ((create_auto_recommended_circles (fun la _ _ _ => la) (fun _ => (0, 0))
          [⟨"a", 0, 0⟩, ⟨"b", 1, 0⟩] 10 5 "B" "red" "E1").getD 0
            default).radius = 10 :=
  ⟨by decide,
    cover_fixed_radius (fun la _ _ _ => la) (fun _ => (0, 0))
      [⟨"a", 0, 0⟩, ⟨"b", 1, 0⟩] 10 5 "B" "red" "E1" _ (by decide)⟩

/-- The per-merchant record built by `create_visit_circles_with_splitting`
(source lines 84-89): code, coordinates and distance from the fixed
center. -/
structure AreaMerchant where
  code : String
  lat : ℚ
  lon : ℚ
  distance : ℚ
deriving DecidableEq, Inhabited

/-- The circle dictionaries produced by `create_visit_circles_with_splitting`
(no executive field on this path). -/
structure SplitCircle where
  name : String
  center_lat : ℚ
  center_lon : ℚ
  radius : ℚ
  color : String
  merchants : List String
  merchant_count : Nat
deriving DecidableEq, Inhabited

/-- Stable insertion used by `stableSortBy`: a later element goes after all
already-placed elements that compare less-or-equal to it. -/
def insertSorted (le : α → α → Bool) (x : α) : List α → List α
  | [] => [x]
  | y :: ys => if le y x then y :: insertSorted le x ys else x :: y :: ys

/-- Stable sort modelling Python's stable `list.sort(key=...)` by insertion,
processing the input left to right. -/
def stableSortBy (le : α → α → Bool) (l : List α) : List α :=
  l.foldl (fun acc x => insertSorted le x acc) []

theorem insertSorted_perm (le : α → α → Bool) (x : α) (l : List α) :
    (insertSorted le x l).Perm (x :: l) := by
  induction l with
  | nil => exact List.Perm.refl _
  | cons y ys ih =>
    rw [insertSorted]
    split
    · exact (ih.cons y).trans (List.Perm.swap x y ys)
    · exact List.Perm.refl _

theorem stableSortBy_perm (le : α → α → Bool) (l : List α) :
    (stableSortBy le l).Perm l := by
  suffices h : ∀ acc : List α,
      (l.foldl (fun acc x => insertSorted le x acc) acc).Perm (acc ++ l) by
    simpa using h []
  induction l with
  | nil => intro acc; simp
  | cons x xs ih =>
    intro acc
    rw [List.foldl_cons]
    refine (ih (insertSorted le x acc)).trans ?_
    have h1 : (insertSorted le x acc ++ xs).Perm ((x :: acc) ++ xs) :=
      (insertSorted_perm le x acc).append_right xs
    refine h1.trans ?_
    rw [List.cons_append]
    exact (List.perm_middle).symm

/-- Capacity-sized slicing of the sorted member list (the
`while start_idx < len(...)` loop of source lines 111-139).  The source
loop does not terminate for a capacity of 0; the model returns `[]` there
(all claims concern capacity at least 1). -/
def chunksOfFuel (k : Nat) : Nat → List α → List (List α)
  | _, [] => []
  | 0, _ :: _ => []
  | fuel + 1, x :: xs => (x :: xs.take k) :: chunksOfFuel k fuel (xs.drop k)

def chunksOf : Nat → List α → List (List α)
  | 0, _ => []
  | k + 1, l => chunksOfFuel k l.length l

/-- Python's `max` over a non-empty list of values (0 for the empty list,
which the source never queries). -/
def listMaxD : List ℚ → ℚ
  | [] => 0
  | x :: xs => xs.foldl max x

/-- The maximum distance from the sub-circle center to any chunk member
(source lines 121-122; the scalar haversine is called as
`haversine_distance(avg_lat, avg_lon, m_lat, m_lon)`). -/
def chunkMaxDist (dist : GeoDist) (avg_lat avg_lon : ℚ)
    (chunk : List AreaMerchant) : ℚ :=
  listMaxD (chunk.map (fun m => dist avg_lat avg_lon m.lat m.lon))

/-- Centroid latitude of a chunk (source line 117). -/
def centroidLat (chunk : List AreaMerchant) : ℚ :=
  (chunk.map AreaMerchant.lat).sum / chunk.length

/-- Centroid longitude of a chunk (source line 118). -/
def centroidLon (chunk : List AreaMerchant) : ℚ :=
  (chunk.map AreaMerchant.lon).sum / chunk.length

/-- The sub-circle built for the `n`-th chunk (1-based; source lines
116-136): centroid center, radius `max_distance * 1.2` — written `* (6/5)`
in the rational model — and the `_Circle_<n>` naming for chunks after the
first. -/
def chunkCircle (dist : GeoDist) (visit_day color : String) (n : Nat)
    (chunk : List AreaMerchant) : SplitCircle :=
  let avg_lat := centroidLat chunk
  let avg_lon := centroidLon chunk
  let sub_radius := chunkMaxDist dist avg_lat avg_lon chunk * (6 / 5)
  { name := if 1 < n then visit_day ++ "_Circle_" ++ toString n else visit_day,
    center_lat := avg_lat, center_lon := avg_lon, radius := sub_radius,
    color := color, merchants := chunk.map AreaMerchant.code,
    merchant_count := chunk.length }

/-- The merchants inside the fixed initial circle, with their distances
(source lines 76-89). -/
def merchantsInArea (dist : GeoDist) (merchant_data : List Merchant)
    (center_lat center_lon radius_meters : ℚ) : List AreaMerchant :=
  merchant_data.filterMap (fun m =>
    let d := dist center_lat center_lon m.lat m.lon
    if d ≤ radius_meters then some ⟨m.code, m.lat, m.lon, d⟩ else none)

/-- `create_visit_circles_with_splitting(merchant_data, center_lat,
center_lon, radius_meters, max_merchants_per_circle, visit_day, color)`:
one as-given circle when the members fit the capacity, otherwise the
members sorted by distance from the original center (stable sort) are
sliced into capacity-sized chunks, each emitted as a centroid-centered
sub-circle of radius `1.2 × max member distance`. -/
def create_visit_circles_with_splitting (dist : GeoDist)
    (merchant_data : List Merchant) (center_lat center_lon radius_meters : ℚ)
    (max_merchants_per_circle : Nat) (visit_day color : String) :
    List SplitCircle :=
  let area := merchantsInArea dist merchant_data center_lat center_lon radius_meters
  if area.length ≤ max_merchants_per_circle then
    [{ name := visit_day, center_lat := center_lat, center_lon := center_lon,
       radius := radius_meters, color := color,
       merchants := area.map AreaMerchant.code, merchant_count := area.length }]
  else
    let sorted := stableSortBy (fun a b => decide (a.distance ≤ b.distance)) area
    (chunksOf max_merchants_per_circle sorted).enum.map
      (fun p => chunkCircle dist visit_day color (p.1 + 1) p.2)

/-- C3 counterexample: with target radius 100, capacity 1 and two in-area
points, the first emitted chunk circle has centroid (0,0), sole member "a"
at distance 0 from the centroid, and radius `1.2 × 0 = 0` — not
`max(target_radius, 1.2 × max_member_distance) = 100` as the claim states.
The source (line 123) sets `sub_radius = max_distance * 1.2` with no lower
bound at the target radius. -/
theorem split_radius_counterexample :
    ((create_visit_circles_with_splitting (fun _ _ la _ => la)
        [⟨"a", 0, 0⟩, ⟨"b", 1, 0⟩] 0 0 100 1 "D" "red").map
          (fun c => c.radius)) = [0, 6 / 5]
    ∧ ((create_visit_circles_with_splitting (fun _ _ la _ => la)
        [⟨"a", 0, 0⟩, ⟨"b", 1, 0⟩] 0 0 100 1 "D" "red").getD 0
          default).merchants = ["a"]
    ∧ ((create_visit_circles_with_splitting (fun _ _ la _ => la)
        [⟨"a", 0, 0⟩, ⟨"b", 1, 0⟩] 0 0 100 1 "D" "red").getD 0
          default).center_lat = 0
    ∧ ((create_visit_circles_with_splitting (fun _ _ la _ => la)
        [⟨"a", 0, 0⟩, ⟨"b", 1, 0⟩] 0 0 100 1 "D" "red").getD 0
          default).radius = 0
    ∧ max (100 : ℚ) ((6 / 5) * 0) ≠ (0 : ℚ) := by
  have harea : merchantsInArea (fun _ _ la _ => la)
      [⟨"a", 0, 0⟩, ⟨"b", 1, 0⟩] 0 0 100
      = [⟨"a", 0, 0, 0⟩, ⟨"b", 1, 0, 1⟩] := by decide
  have hres : create_visit_circles_with_splitting (fun _ _ la _ => la)
      [⟨"a", 0, 0⟩, ⟨"b", 1, 0⟩] 0 0 100 1 "D" "red"
      = [chunkCircle (fun _ _ la _ => la) "D" "red" 1 [⟨"a", 0, 0, 0⟩],
          chunkCircle (fun _ _ la _ => la) "D" "red" 2 [⟨"b", 1, 0, 1⟩]] := by
    simp only [create_visit_circles_with_splitting]
    rw [harea, if_neg (by decide)]
    rw [show stableSortBy (fun a b : AreaMerchant => decide (a.distance ≤ b.distance))
        [⟨"a", 0, 0, 0⟩, ⟨"b", 1, 0, 1⟩] = [⟨"a", 0, 0, 0⟩, ⟨"b", 1, 0, 1⟩] from by decide]
    rw [show chunksOf 1 [(⟨"a", 0, 0, 0⟩ : AreaMerchant), ⟨"b", 1, 0, 1⟩]
        = [[⟨"a", 0, 0, 0⟩], [⟨"b", 1, 0, 1⟩]] from by decide]
    rfl
  rw [hres]
  refine ⟨?_, ?_, ?_, ?_, by norm_num⟩
  · simp only [List.map_cons, List.map_nil, chunkCircle, chunkMaxDist, listMaxD,
      centroidLat, centroidLon, List.foldl]
    norm_num
  · simp [chunkCircle]
  · simp only [List.getD_cons_zero, chunkCircle, centroidLat]
    norm_num
  · simp only [List.getD_cons_zero, chunkCircle, chunkMaxDist, listMaxD,
      centroidLat, centroidLon, List.foldl]
    norm_num

/-- C3 amended: in the splitting branch (more in-area members than the
capacity), every emitted circle corresponds to one capacity-sized chunk of
the distance-sorted member list and has radius exactly `1.2 × the maximum
distance from the chunk's centroid to any chunk member` — with no lower
bound at the caller's target radius. -/
theorem split_chunk_radius_amended (dist : GeoDist) (data : List Merchant)
    (clat clon radius : ℚ) (maxPer : Nat) (visit_day color : String)
    (hover : maxPer < (merchantsInArea dist data clat clon radius).length) :
    ∀ c ∈ create_visit_circles_with_splitting dist data clat clon radius
        maxPer visit_day color,
      ∃ chunk ∈ chunksOf maxPer
          (stableSortBy (fun a b => decide (a.distance ≤ b.distance))
            (merchantsInArea dist data clat clon radius)),
        c.merchants = chunk.map AreaMerchant.code
        ∧ c.center_lat = centroidLat chunk
        ∧ c.center_lon = centroidLon chunk
        ∧ c.radius
            = chunkMaxDist dist (centroidLat chunk) (centroidLon chunk) chunk
                * (6 / 5) := by
  intro c hc
  unfold create_visit_circles_with_splitting at hc
  rw [if_neg (by omega)] at hc
  rcases List.mem_map.mp hc with ⟨p, hp, rfl⟩
  exact ⟨p.2, mem_snd_of_mem_enum hp, rfl, rfl, rfl, rfl⟩

/-- Witness for `split_chunk_radius_amended` at the counterexample input. -/
theorem split_chunk_radius_amended_witness :
    1 < (merchantsInArea (fun _ _ la _ => la)
        [⟨"a", 0, 0⟩, ⟨"b", 1, 0⟩] 0 0 100).length
    ∧ (∀ c ∈ create_visit_circles_with_splitting (fun _ _ la _ => la)
          [⟨"a", 0, 0⟩, ⟨"b", 1, 0⟩] 0 0 100 1 "D" "red",
        ∃ chunk ∈ chunksOf 1
            (stableSortBy (fun a b => decide (a.distance ≤ b.distance))
              (merchantsInArea (fun _ _ la _ => la)
                [⟨"a", 0, 0⟩, ⟨"b", 1, 0⟩] 0 0 100)),
          c.merchants = chunk.map AreaMerchant.code
          ∧ c.center_lat = centroidLat chunk
          ∧ c.center_lon = centroidLon chunk
          ∧ c.radius
              = chunkMaxDist (fun _ _ la _ => la) (centroidLat chunk)
                  (centroidLon chunk) chunk * (6 / 5)) :=
  ⟨by decide,
    split_chunk_radius_amended (fun _ _ la _ => la)
      [⟨"a", 0, 0⟩, ⟨"b", 1, 0⟩] 0 0 100 1 "D" "red" (by decide)⟩

/-- The inner scan of `_nearest_neighbor_routing` (source lines 683-691):
fold over the unvisited tail keeping the best (index, distance) pair,
updating only on a strictly smaller distance — so the first occurrence of
the minimum wins.  The Python loop starts from `min_distance = inf`, which
the first element always beats; the model starts from the first element's
distance accordingly. -/
def nnScan (f : α → ℚ) : List α → Nat → Nat × ℚ → Nat × ℚ
  | [], _, best => best
  | x :: xs, i, best =>
      nnScan f xs (i + 1) (if f x < best.2 then (i, f x) else best)

theorem nnScan_spec (f : α → ℚ) :
    ∀ (xs : List α) (i₀ bi : Nat) (bv : ℚ),
      (nnScan f xs i₀ (bi, bv)).2 ≤ bv
      ∧ (∀ k (hk : k < xs.length), (nnScan f xs i₀ (bi, bv)).2 ≤ f (xs.get ⟨k, hk⟩))
      ∧ (((nnScan f xs i₀ (bi, bv)).1 = bi ∧ (nnScan f xs i₀ (bi, bv)).2 = bv)
          ∨ (∃ k, ∃ (hk : k < xs.length),
              (nnScan f xs i₀ (bi, bv)).1 = i₀ + k
              ∧ (nnScan f xs i₀ (bi, bv)).2 = f (xs.get ⟨k, hk⟩)
              ∧ (nnScan f xs i₀ (bi, bv)).2 < bv
              ∧ ∀ j (hj : j < k),
                  (nnScan f xs i₀ (bi, bv)).2 < f (xs.get ⟨j, by omega⟩))) := by
  intro xs
  induction xs with
  | nil =>
    intro i₀ bi bv
    exact ⟨le_refl _, fun k hk => absurd hk (by simp), Or.inl ⟨rfl, rfl⟩⟩
  | cons x xs ih =>
    intro i₀ bi bv
    rw [nnScan]
    by_cases hx : f x < bv
    · rw [if_pos hx]
      rcases ih (i₀ + 1) i₀ (f x) with ⟨h1, h2, h3⟩
      refine ⟨le_of_lt (lt_of_le_of_lt h1 hx), ?_, ?_⟩
      · intro k hk
        cases k with
        | zero => exact h1
        | succ k => exact h2 k (by simpa using hk)
      · rcases h3 with ⟨hi, hv⟩ | ⟨k, hk, hi, hv, hlt, hfirst⟩
        · refine Or.inr ⟨0, by simp, by omega, by simpa using hv, ?_, ?_⟩
          · rw [hv]; exact hx
          · intro j hj; omega
        · refine Or.inr ⟨k + 1, by simpa using hk, by omega, by simpa using hv,
            lt_trans hlt hx, ?_⟩
          intro j hj
          cases j with
          | zero => simpa using hlt
          | succ j =>
            have := hfirst j (by omega)
            simpa using this
    · rw [if_neg hx]
      have hbvx : bv ≤ f x := le_of_not_lt hx
      rcases ih (i₀ + 1) bi bv with ⟨h1, h2, h3⟩
      refine ⟨h1, ?_, ?_⟩
      · intro k hk
        cases k with
        | zero => exact le_trans h1 hbvx
        | succ k => exact h2 k (by simpa using hk)
      · rcases h3 with ⟨hi, hv⟩ | ⟨k, hk, hi, hv, hlt, hfirst⟩
        · exact Or.inl ⟨hi, hv⟩
        · refine Or.inr ⟨k + 1, by simpa using hk, by omega, by simpa using hv,
            hlt, ?_⟩
          intro j hj
          cases j with
          | zero => simpa using lt_of_lt_of_le hlt hbvx
          | succ j =>
            have := hfirst j (by omega)
            simpa using this

/-- Dropping the chosen element: a list is a permutation of its `i`-th
element consed onto the list with index `i` erased. -/
theorem perm_cons_eraseIdx :
    ∀ (l : List α) (i : Nat) (hi : i < l.length),
      l.Perm (l.get ⟨i, hi⟩ :: l.eraseIdx i) := by
  intro l
  induction l with
  | nil => intro i hi; simp at hi
  | cons x xs ih =>
    intro i hi
    cases i with
    | zero => exact List.Perm.refl _
    | succ i =>
      have hi' : i < xs.length := by simpa using hi
      have h1 := (ih i hi').cons x
      refine h1.trans ?_
      exact List.Perm.swap _ _ _

/-- The `while unvisited:` loop of `_nearest_neighbor_routing` (source lines
677-698), by recursion on fuel: find the first nearest unvisited circle
(strict-improvement scan), append it to the route, pop it, move there. -/
def nnRouteLoop [Inhabited α] (dist : GeoDist) (latOf lonOf : α → ℚ) :
    Nat → List α → ℚ × ℚ → List α
  | 0, _, _ => []
  | _ + 1, [], _ => []
  | fuel + 1, x :: xs, cur =>
    let f : α → ℚ := fun c => dist cur.1 cur.2 (latOf c) (lonOf c)
    let best := nnScan f xs 1 (0, f x)
    let chosen := (x :: xs).getD best.1 x
    chosen :: nnRouteLoop dist latOf lonOf fuel ((x :: xs).eraseIdx best.1)
      (latOf chosen, lonOf chosen)

/-- `_nearest_neighbor_routing(circles, start_lat, start_lon)`, generic in
the record type through the two center accessors (the source reads the
dictionary keys center_lat / center_lon). -/
def nearest_neighbor_routing [Inhabited α] (dist : GeoDist)
    (latOf lonOf : α → ℚ) (circles : List α) (start_lat start_lon : ℚ) :
    List α :=
  if circles.length ≤ 1 then circles
  else nnRouteLoop dist latOf lonOf circles.length circles (start_lat, start_lon)

/-- The scan's chosen index is in bounds for a non-empty list. -/
theorem nnScan_idx_lt [Inhabited α] (dist : GeoDist) (latOf lonOf : α → ℚ)
    (x : α) (xs : List α) (cur : ℚ × ℚ) :
    (nnScan (fun c => dist cur.1 cur.2 (latOf c) (lonOf c)) xs 1
        (0, dist cur.1 cur.2 (latOf x) (lonOf x))).1 < (x :: xs).length := by
  rcases (nnScan_spec (fun c => dist cur.1 cur.2 (latOf c) (lonOf c)) xs 1 0
    (dist cur.1 cur.2 (latOf x) (lonOf x))).2.2 with ⟨hi, -⟩ | ⟨k, hk, hi, -⟩
  · rw [hi]; simp
  · rw [hi]
    simp only [List.length_cons]
    omega

theorem nnRouteLoop_perm [Inhabited α] (dist : GeoDist) (latOf lonOf : α → ℚ) :
    ∀ (fuel : Nat) (l : List α) (cur : ℚ × ℚ), l.length ≤ fuel →
      (nnRouteLoop dist latOf lonOf fuel l cur).Perm l := by
  intro fuel
  induction fuel with
  | zero =>
    intro l cur hl
    rw [List.length_eq_zero.mp (Nat.le_zero.mp hl)]
    exact List.Perm.refl _
  | succ fuel ih =>
    intro l cur hl
    cases l with
    | nil => exact List.Perm.refl _
    | cons x xs =>
      rw [nnRouteLoop]
      have hidx := nnScan_idx_lt dist latOf lonOf x xs cur
      have hgetD : (x :: xs).getD (nnScan
            (fun c => dist cur.1 cur.2 (latOf c) (lonOf c)) xs 1
            (0, dist cur.1 cur.2 (latOf x) (lonOf x))).1 x
          = (x :: xs).get ⟨_, hidx⟩ := List.getD_eq_getElem _ _ hidx
      rw [hgetD]
      have hlen : ((x :: xs).eraseIdx (nnScan
          (fun c => dist cur.1 cur.2 (latOf c) (lonOf c)) xs 1
          (0, dist cur.1 cur.2 (latOf x) (lonOf x))).1).length ≤ fuel := by
        rw [List.length_eraseIdx_of_lt hidx]
        simp only [List.length_cons] at hl ⊢
        omega
      set chosen := (x :: xs).get ⟨_, hidx⟩ with hchosen
      have hrec := ih ((x :: xs).eraseIdx (nnScan
          (fun c => dist cur.1 cur.2 (latOf c) (lonOf c)) xs 1
          (0, dist cur.1 cur.2 (latOf x) (lonOf x))).1)
        (latOf chosen, lonOf chosen) hlen
      exact (hrec.cons _).trans (perm_cons_eraseIdx (x :: xs) _ hidx).symm

/-- C7: `_nearest_neighbor_routing` returns a permutation of its input
(same multiset of circles); inputs of length 0 or 1 are returned as-is; and
at every step of the loop the circle appended to the route is an unvisited
circle at minimum haversine distance from the current position, the first
such circle in the remaining order when several are tied. -/
theorem nearest_neighbor_routing_spec [Inhabited α] (dist : GeoDist)
    (latOf lonOf : α → ℚ) (circles : List α) (start_lat start_lon : ℚ) :
    (nearest_neighbor_routing dist latOf lonOf circles start_lat start_lon).Perm
        circles
    ∧ (circles.length ≤ 1 →
        nearest_neighbor_routing dist latOf lonOf circles start_lat start_lon
          = circles)
    ∧ (∀ (l : List α) (plat plon : ℚ) (fuel : Nat),
        l ≠ [] → l.length ≤ fuel + 1 →
        ∃ i, ∃ (hi : i < l.length),
          nnRouteLoop dist latOf lonOf (fuel + 1) l (plat, plon)
            = l.get ⟨i, hi⟩
                :: nnRouteLoop dist latOf lonOf fuel (l.eraseIdx i)
                    (latOf (l.get ⟨i, hi⟩), lonOf (l.get ⟨i, hi⟩))
          ∧ (∀ j (hj : j < l.length),
              dist plat plon (latOf (l.get ⟨i, hi⟩)) (lonOf (l.get ⟨i, hi⟩))
                ≤ dist plat plon (latOf (l.get ⟨j, hj⟩)) (lonOf (l.get ⟨j, hj⟩)))
          ∧ (∀ j (hj : j < i),
              dist plat plon (latOf (l.get ⟨i, hi⟩)) (lonOf (l.get ⟨i, hi⟩))
                < dist plat plon (latOf (l.get ⟨j, by omega⟩))
                    (lonOf (l.get ⟨j, by omega⟩)))) := by
  refine ⟨?_, ?_, ?_⟩
  · unfold nearest_neighbor_routing
    split
    · exact List.Perm.refl _
    · exact nnRouteLoop_perm dist latOf lonOf circles.length circles _ (le_refl _)
  · intro h
    unfold nearest_neighbor_routing
    rw [if_pos h]
  · intro l plat plon fuel hne _
    cases l with
    | nil => exact absurd rfl hne
    | cons x xs =>
      set f : α → ℚ := fun c => dist plat plon (latOf c) (lonOf c) with hf
      have hidx := nnScan_idx_lt dist latOf lonOf x xs (plat, plon)
      rcases nnScan_spec f xs 1 0 (f x) with ⟨h1, h2, h3⟩
      refine ⟨(nnScan f xs 1 (0, f x)).1, hidx, ?_, ?_, ?_⟩
      · rw [nnRouteLoop]
        rw [List.getD_eq_getElem _ _ hidx]
        rfl
      · intro j hj
        change f ((x :: xs).get ⟨(nnScan f xs 1 (0, f x)).1, hidx⟩)
          ≤ f ((x :: xs).get ⟨j, hj⟩)
        have hmin : (nnScan f xs 1 (0, f x)).2 ≤ f ((x :: xs).get ⟨j, hj⟩) := by
          cases j with
          | zero => exact h1
          | succ j => exact h2 j (by simpa using hj)
        have hval : (nnScan f xs 1 (0, f x)).2
            = f ((x :: xs).get ⟨(nnScan f xs 1 (0, f x)).1, hidx⟩) := by
          rcases h3 with ⟨hi, hv⟩ | ⟨k, hk, hi, hv, -, -⟩
          · have : (⟨(nnScan f xs 1 (0, f x)).1, hidx⟩ : Fin (x :: xs).length)
                = ⟨0, by simp⟩ := by
              ext
              simpa using hi
            rw [this, hv]
            rfl
          · have : (⟨(nnScan f xs 1 (0, f x)).1, hidx⟩ : Fin (x :: xs).length)
                = ⟨k + 1, by simp only [List.length_cons]; omega⟩ := by
              ext
              simp only [hi]
              omega
            rw [this, hv]
            rfl
        rw [← hval]
        exact hmin
      · intro j hj
        change f ((x :: xs).get ⟨(nnScan f xs 1 (0, f x)).1, hidx⟩)
          < f ((x :: xs).get ⟨j, lt_trans hj hidx⟩)
        rcases h3 with ⟨hi, hv⟩ | ⟨k, hk, hi, hv, hlt, hfirst⟩
        · omega
        · have hval : (nnScan f xs 1 (0, f x)).2
              = f ((x :: xs).get ⟨(nnScan f xs 1 (0, f x)).1, hidx⟩) := by
            have : (⟨(nnScan f xs 1 (0, f x)).1, hidx⟩ : Fin (x :: xs).length)
                = ⟨k + 1, by simp only [List.length_cons]; omega⟩ := by
              ext
              simp only [hi]
              omega
            rw [this, hv]
            rfl
          rw [← hval]
          cases j with
          | zero => simpa using hlt
          | succ j =>
            have hjk : j < k := by omega
            have := hfirst j hjk
            simpa using this

/-- A territory/circle dictionary as consumed by `assign_visit_days`:
the fields of the covering engine's circles plus the optional `visit_day`
key (absent = `none`). -/
structure Territory where
  name : String
  center_lat : ℚ
  center_lon : ℚ
  radius : ℚ
  color : String
  merchants : List String
  merchant_count : Nat
  executive : String
  visit_day : Option Nat
deriving DecidableEq, Inhabited

/-- A row of the employee table (emp_id, emp_latitude, emp_longitude). -/
structure Employee where
  emp_id : String
  emp_latitude : ℚ
  emp_longitude : ℚ
deriving DecidableEq, Inhabited

/-- The two assignment modes of `assign_visit_days`. -/
inductive AssignMode
  | perExecutive
  | globalRanking
deriving DecidableEq

/-- `territory.copy()` followed by `del territory_copy['visit_day']`
(source lines 566-572). -/
def clearDay (t : Territory) : Territory := { t with visit_day := none }

/-- Python's stable `list.sort(key=lambda x: x['merchant_count'],
reverse=True)` on (original index, territory) pairs — the index models the
object identity of the shared dictionaries. -/
def sortByCountDesc (l : List (Nat × Territory)) : List (Nat × Territory) :=
  stableSortBy (fun a b => decide (b.2.merchant_count ≤ a.2.merchant_count)) l

/-- Mean of the circle centers, the fallback start location
(source lines 650-652). -/
def circlesCentroid (circles : List (Nat × Territory)) : ℚ × ℚ :=
  ((circles.map (fun c => c.2.center_lat)).sum / circles.length,
    (circles.map (fun c => c.2.center_lon)).sum / circles.length)

/-- `_optimize_visit_routing(circles, exec_id, employee_data)`: start from
the executive's location when the employee table has it, otherwise from the
centroid of the circles, then apply `_nearest_neighbor_routing`. -/
def optimize_visit_routing (dist : GeoDist) (circles : List (Nat × Territory))
    (exec_id : String) (employee_data : Option (List Employee)) :
    List (Nat × Territory) :=
  if circles.length ≤ 1 then circles
  else
    let startLoc : ℚ × ℚ :=
      match employee_data with
      | some ed =>
        match ed.find? (fun emp => emp.emp_id == exec_id) with
        | some emp => (emp.emp_latitude, emp.emp_longitude)
        | none => circlesCentroid circles
      | none => circlesCentroid circles
    nearest_neighbor_routing dist (fun c => c.2.center_lat)
      (fun c => c.2.center_lon) circles startLoc.1 startLoc.2

/-- `for day_num, circle in enumerate(ordered_circles, start): circle['visit_day']
= day_num` — the in-place dictionary writes, as index-addressed updates of
the shared list. -/
def applyDays : List Territory → List (Nat × Territory) → Nat → List Territory
  | base, [], _ => base
  | base, p :: rest, day =>
      applyDays (base.set p.1 { base.getD p.1 default with visit_day := some day })
        rest (day + 1)

/-- Python dict-key insertion order: the distinct executives of the top
circles in first-occurrence order (the iteration order of `exec_groups`). -/
def dedupFirst (l : List String) : List String :=
  l.foldl (fun acc x => if acc.contains x then acc else acc ++ [x]) []

/-- `assign_visit_days(territories, employee_data, top_count,
assignment_mode, selected_executives)`: clear every `visit_day`, then in
Per-Executive mode, for each selected executive, rank that executive's
circles by descending merchant count (stable), keep the top `top_count`,
route them, and write `visit_day = 1, 2, …` onto the routed circles; in
Global-Ranking mode rank all selected executives' circles together, keep
the global top `top_count`, group them by executive in first-encounter
order and assign a single increasing day counter across the groups. -/
def assign_visit_days (dist : GeoDist) (territories : List Territory)
    (employee_data : Option (List Employee)) (top_count : Nat)
    (assignment_mode : AssignMode) (selected_executives : List String) :
    List Territory :=
  let updated := territories.map clearDay
  match assignment_mode with
  | .perExecutive =>
    selected_executives.foldl (fun acc exec_id =>
      let exec_circles := acc.enum.filter (fun p => p.2.executive == exec_id)
      if exec_circles.isEmpty then acc
      else
        let sorted := sortByCountDesc exec_circles
        let top := sorted.take (min top_count sorted.length)
        let ordered := optimize_visit_routing dist top exec_id employee_data
        applyDays acc ordered 1) updated
  | .globalRanking =>
    let all_exec := selected_executives.foldl
      (fun acc2 exec_id =>
        acc2 ++ updated.enum.filter (fun p => p.2.executive == exec_id)) []
    if all_exec.isEmpty then updated
    else
      let sorted := sortByCountDesc all_exec
      let top := sorted.take (min top_count sorted.length)
      let keys := dedupFirst (top.map (fun p => p.2.executive))
      (keys.foldl (fun (st : List Territory × Nat) key =>
        let group := top.filter (fun p => p.2.executive == key)
        let ordered := optimize_visit_routing dist group key employee_data
        (applyDays st.1 ordered st.2, st.2 + ordered.length)) (updated, 1)).1

theorem applyDays_length (ordered : List (Nat × Territory)) :
    ∀ (base : List Territory) (start : Nat),
      (applyDays base ordered start).length = base.length := by
  induction ordered with
  | nil => intro base start; rfl
  | cons p rest ih =>
    intro base start
    rw [applyDays, ih, List.length_set]

/-- Pointwise description of `applyDays`: positions not written keep their
value, and the position written at step `k` holds the base value with
`visit_day` set to `start + k`. -/
theorem applyDays_getD (ordered : List (Nat × Territory)) :
    ∀ (base : List Territory) (start : Nat),
      (ordered.map Prod.fst).Nodup →
      (∀ p ∈ ordered, p.1 < base.length) →
      ((∀ i, i ∉ ordered.map Prod.fst →
          (applyDays base ordered start).getD i default = base.getD i default)
        ∧ (∀ k (hk : k < ordered.length),
            (applyDays base ordered start).getD (ordered.get ⟨k, hk⟩).1 default
              = { base.getD (ordered.get ⟨k, hk⟩).1 default with
                  visit_day := some (start + k) })) := by
  induction ordered with
  | nil =>
    intro base start _ _
    exact ⟨fun i _ => rfl, fun k hk => absurd hk (by simp)⟩
  | cons p rest ih =>
    intro base start hnd hbound
    have hp : p.1 < base.length := hbound p (List.mem_cons_self _ _)
    have hpnotin : p.1 ∉ rest.map Prod.fst := by
      have := hnd
      rw [List.map_cons, List.nodup_cons] at this
      exact this.1
    set base' := base.set p.1
      { base.getD p.1 default with visit_day := some start } with hbase'
    have hnd' : (rest.map Prod.fst).Nodup := by
      rw [List.map_cons, List.nodup_cons] at hnd
      exact hnd.2
    have hbound' : ∀ q ∈ rest, q.1 < base'.length := by
      intro q hq
      rw [hbase', List.length_set]
      exact hbound q (List.mem_cons_of_mem _ hq)
    rcases ih base' (start + 1) hnd' hbound' with ⟨huntouched, hwritten⟩
    have hgetD_set_ne : ∀ i, i ≠ p.1 →
        base'.getD i default = base.getD i default := by
      intro i hip
      rcases Nat.lt_or_ge i base.length with hlt | hge
      · rw [List.getD_eq_getElem _ _ (by rw [hbase', List.length_set]; exact hlt),
          List.getD_eq_getElem _ _ hlt]
        exact List.getElem_set_ne (by omega) _
      · rw [List.getD_eq_default _ _ (by rw [hbase', List.length_set]; omega),
          List.getD_eq_default _ _ (by omega)]
    have hgetD_set_self : base'.getD p.1 default
        = { base.getD p.1 default with visit_day := some start } := by
      rw [List.getD_eq_getElem _ _ (by rw [hbase', List.length_set]; exact hp)]
      exact List.getElem_set_self _
    constructor
    · intro i hi
      rw [List.map_cons, List.mem_cons] at hi
      push_neg at hi
      rw [applyDays, ← hbase']
      rw [huntouched i hi.2]
      exact hgetD_set_ne i hi.1
    · intro k hk
      cases k with
      | zero =>
        rw [applyDays, ← hbase']
        have hzero : ((p :: rest).get ⟨0, hk⟩) = p := rfl
        rw [hzero]
        rw [huntouched p.1 hpnotin, hgetD_set_self]
        rfl
      | succ k =>
        have hk' : k < rest.length := by simpa using hk
        rw [applyDays, ← hbase']
        have hsucc : ((p :: rest).get ⟨k + 1, hk⟩) = rest.get ⟨k, hk'⟩ := rfl
        rw [hsucc]
        have hne : (rest.get ⟨k, hk'⟩).1 ≠ p.1 := by
          intro h
          exact hpnotin (h ▸ List.mem_map_of_mem Prod.fst (rest.get_mem _ _))
        rw [hwritten k hk', hgetD_set_ne _ hne]
        have harith : start + 1 + k = start + (k + 1) := by omega
        rw [harith]

theorem filterMap_visit_set :
    ∀ (base : List Territory) (i : Nat) (v : Territory),
      i < base.length → (base.getD i default).visit_day = none →
      ((base.set i v).filterMap (fun t => t.visit_day)).Perm
        ((base.filterMap (fun t => t.visit_day)) ++ v.visit_day.toList) := by
  intro base
  induction base with
  | nil => intro i v hi; simp at hi
  | cons t ts ih =>
    intro i v hi hnone
    cases i with
    | zero =>
      have ht : t.visit_day = none := hnone
      cases hv : v.visit_day with
      | none =>
        simp only [List.set_cons_zero, List.filterMap_cons, ht, hv,
          Option.toList_none, List.append_nil]
        exact List.Perm.refl _
      | some d =>
        simp only [List.set_cons_zero, List.filterMap_cons, ht, hv,
          Option.toList_some]
        exact (List.perm_append_singleton _ _).symm
    | succ i =>
      have hi' : i < ts.length := by simpa using hi
      have hnone' : (ts.getD i default).visit_day = none := hnone
      cases ht : t.visit_day with
      | none =>
        simp only [List.set_cons_succ, List.filterMap_cons, ht]
        exact ih i v hi' hnone'
      | some d0 =>
        simp only [List.set_cons_succ, List.filterMap_cons, ht,
          List.cons_append]
        exact (ih i v hi' hnone').cons d0

theorem countP_set_of (P : Territory → Bool) :
    ∀ (base : List Territory) (i : Nat) (v : Territory), i < base.length →
      (base.set i v).countP P + (if P (base.getD i default) then 1 else 0)
        = base.countP P + (if P v then 1 else 0) := by
  intro base
  induction base with
  | nil => intro i v hi; simp at hi
  | cons t ts ih =>
    intro i v hi
    cases i with
    | zero =>
      have h0 : (t :: ts).getD 0 default = t := rfl
      rw [h0, List.set_cons_zero]
      rw [List.countP_cons, List.countP_cons]
      omega
    | succ i =>
      have hi' : i < ts.length := by simpa using hi
      have hs : (t :: ts).getD (i + 1) default = ts.getD i default := rfl
      rw [hs, List.set_cons_succ]
      rw [List.countP_cons, List.countP_cons]
      have := ih i v hi'
      omega

theorem applyDays_filterMap (ordered : List (Nat × Territory)) :
    ∀ (base : List Territory) (start : Nat),
      (ordered.map Prod.fst).Nodup →
      (∀ p ∈ ordered, p.1 < base.length) →
      (∀ p ∈ ordered, (base.getD p.1 default).visit_day = none) →
      ((applyDays base ordered start).filterMap (fun t => t.visit_day)).Perm
        ((base.filterMap (fun t => t.visit_day))
          ++ List.range' start ordered.length) := by
  induction ordered with
  | nil =>
    intro base start _ _ _
    simp only [applyDays, List.length_nil, List.range'_zero, List.append_nil]
    exact List.Perm.refl _
  | cons p rest ih =>
    intro base start hnd hbound hnone
    have hp : p.1 < base.length := hbound p (List.mem_cons_self _ _)
    have hpnotin : p.1 ∉ rest.map Prod.fst := by
      rw [List.map_cons, List.nodup_cons] at hnd
      exact hnd.1
    have hnd' : (rest.map Prod.fst).Nodup := by
      rw [List.map_cons, List.nodup_cons] at hnd
      exact hnd.2
    rw [applyDays]
    set v : Territory :=
      { base.getD p.1 default with visit_day := some start } with hv
    have hqne : ∀ q ∈ rest, q.1 ≠ p.1 := by
      intro q hq h
      exact hpnotin (h ▸ List.mem_map_of_mem Prod.fst hq)
    have hgetD' : ∀ q ∈ rest, ((base.set p.1 v).getD q.1 default)
        = base.getD q.1 default := by
      intro q hq
      rcases Nat.lt_or_ge q.1 base.length with hlt | hge
      · rw [List.getD_eq_getElem _ _ (by rw [List.length_set]; exact hlt),
          List.getD_eq_getElem _ _ hlt]
        exact List.getElem_set_ne (fun h => hqne q hq h.symm) _
      · rw [List.getD_eq_default _ _ (by rw [List.length_set]; omega),
          List.getD_eq_default _ _ (by omega)]
    have hrec := ih (base.set p.1 v) (start + 1) hnd'
      (by
        intro q hq
        rw [List.length_set]
        exact hbound q (List.mem_cons_of_mem _ hq))
      (by
        intro q hq
        rw [hgetD' q hq]
        exact hnone q (List.mem_cons_of_mem _ hq))
    refine hrec.trans ?_
    have hset := filterMap_visit_set base p.1 v hp (hnone p (List.mem_cons_self _ _))
    have hvday : v.visit_day.toList = [start] := rfl
    rw [hvday] at hset
    have h1 := hset.append_right (List.range' (start + 1) rest.length)
    refine h1.trans ?_
    rw [List.append_assoc, List.singleton_append,
      show (p :: rest).length = rest.length + 1 from rfl, List.range'_succ]

theorem applyDays_countP_exec (e : String) (ordered : List (Nat × Territory)) :
    ∀ (base : List Territory) (start : Nat),
      (∀ p ∈ ordered, p.1 < base.length) →
      (applyDays base ordered start).countP (fun t => t.executive == e)
        = base.countP (fun t => t.executive == e) := by
  induction ordered with
  | nil => intro base start _; rfl
  | cons p rest ih =>
    intro base start hbound
    have hp : p.1 < base.length := hbound p (List.mem_cons_self _ _)
    rw [applyDays]
    set v : Territory :=
      { base.getD p.1 default with visit_day := some start } with hv
    have hstep := countP_set_of (fun t => t.executive == e) base p.1 v hp
    have hsame : (v.executive == e) = ((base.getD p.1 default).executive == e) := rfl
    have hrec := ih (base.set p.1 v) (start + 1)
      (by
        intro q hq
        rw [List.length_set]
        exact hbound q (List.mem_cons_of_mem _ hq))
    rw [hrec]
    simp only [hsame] at hstep
    omega

theorem applyDays_countP_unassigned (e : String)
    (ordered : List (Nat × Territory)) :
    ∀ (base : List Territory) (start : Nat),
      (ordered.map Prod.fst).Nodup →
      (∀ p ∈ ordered, p.1 < base.length) →
      (∀ p ∈ ordered, (base.getD p.1 default).executive = e
        ∧ (base.getD p.1 default).visit_day = none) →
      (applyDays base ordered start).countP
          (fun t => t.executive == e && t.visit_day == none)
        + ordered.length
        = base.countP (fun t => t.executive == e && t.visit_day == none) := by
  induction ordered with
  | nil => intro base start _ _ _; rfl
  | cons p rest ih =>
    intro base start hnd hbound hprop
    have hp : p.1 < base.length := hbound p (List.mem_cons_self _ _)
    have hpnotin : p.1 ∉ rest.map Prod.fst := by
      rw [List.map_cons, List.nodup_cons] at hnd
      exact hnd.1
    have hnd' : (rest.map Prod.fst).Nodup := by
      rw [List.map_cons, List.nodup_cons] at hnd
      exact hnd.2
    rw [applyDays]
    set v : Territory :=
      { base.getD p.1 default with visit_day := some start } with hv
    have hqne : ∀ q ∈ rest, q.1 ≠ p.1 := by
      intro q hq h
      exact hpnotin (h ▸ List.mem_map_of_mem Prod.fst hq)
    have hgetD' : ∀ q ∈ rest, ((base.set p.1 v).getD q.1 default)
        = base.getD q.1 default := by
      intro q hq
      rcases Nat.lt_or_ge q.1 base.length with hlt | hge
      · rw [List.getD_eq_getElem _ _ (by rw [List.length_set]; exact hlt),
          List.getD_eq_getElem _ _ hlt]
        exact List.getElem_set_ne (fun h => hqne q hq h.symm) _
      · rw [List.getD_eq_default _ _ (by rw [List.length_set]; omega),
          List.getD_eq_default _ _ (by omega)]
    have hstep := countP_set_of
      (fun t => t.executive == e && t.visit_day == none) base p.1 v hp
    have hPbase : ((base.getD p.1 default).executive == e
        && (base.getD p.1 default).visit_day == none) = true := by
      rcases hprop p (List.mem_cons_self _ _) with ⟨h1, h2⟩
      rw [h1, h2]
      simp
    have hPv : (v.executive == e && v.visit_day == none) = false := by
      have : v.visit_day = some start := rfl
      rw [Bool.and_eq_false_iff]
      right
      rw [this]
      simp
    simp only [hPbase, hPv] at hstep
    norm_num at hstep
    have hrec := ih (base.set p.1 v) (start + 1) hnd'
      (by
        intro q hq
        rw [List.length_set]
        exact hbound q (List.mem_cons_of_mem _ hq))
      (by
        intro q hq
        rw [hgetD' q hq]
        exact hprop q (List.mem_cons_of_mem _ hq))
    simp only [List.length_cons]
    omega

theorem nearest_neighbor_routing_perm [Inhabited α] (dist : GeoDist)
    (latOf lonOf : α → ℚ) (circles : List α) (slat slon : ℚ) :
    (nearest_neighbor_routing dist latOf lonOf circles slat slon).Perm circles := by
  unfold nearest_neighbor_routing
  split
  · exact List.Perm.refl _
  · exact nnRouteLoop_perm dist latOf lonOf circles.length circles _ (le_refl _)

theorem optimize_visit_routing_perm (dist : GeoDist)
    (circles : List (Nat × Territory)) (exec_id : String)
    (emp : Option (List Employee)) :
    (optimize_visit_routing dist circles exec_id emp).Perm circles := by
  unfold optimize_visit_routing
  split
  · exact List.Perm.refl _
  · exact nearest_neighbor_routing_perm dist _ _ circles _ _

theorem enum_mem_getD [Inhabited α] {l : List α} {p : Nat × α}
    (hp : p ∈ l.enum) : p.1 < l.length ∧ l.getD p.1 default = p.2 := by
  have h := List.mem_enum_iff_getElem?.mp hp
  rcases List.getElem?_eq_some.mp h with ⟨hlt, heq⟩
  refine ⟨hlt, ?_⟩
  rw [List.getD_eq_getElem _ _ hlt]
  exact heq

theorem length_filter_enum_snd (l : List Territory) (q : Territory → Bool) :
    (l.enum.filter (fun p => q p.2)).length = l.countP q := by
  have h1 : (l.enum.filter (fun p => q p.2)).length
      = ((l.enum.map Prod.snd).filter q).length := by
    rw [List.filter_map, List.length_map]
    rfl
  rw [h1, List.enum_map_snd, List.countP_eq_length_filter]

/-- C8: `assign_visit_days` in Per-Executive mode with one selected
executive e owning M > N circles: the result has the input's length, its
visit_day values are exactly 1..N each used once, every circle carrying a
visit_day belongs to e, and exactly M − N circles of e carry no visit_day —
any visit_day present on the input is cleared first, so nothing stale
survives re-invocation. -/
theorem assign_visit_days_per_exec_scoping (dist : GeoDist)
    (ts : List Territory) (emp : Option (List Employee)) (e : String) (N : Nat)
    (hM : N < ts.countP (fun t => t.executive == e)) :
    (assign_visit_days dist ts emp N AssignMode.perExecutive [e]).length
        = ts.length
    ∧ ((assign_visit_days dist ts emp N AssignMode.perExecutive [e]).filterMap
        (fun t => t.visit_day)).Perm (List.range' 1 N)
    ∧ (∀ t ∈ assign_visit_days dist ts emp N AssignMode.perExecutive [e],
        t.visit_day ≠ none → t.executive = e)
    ∧ (assign_visit_days dist ts emp N AssignMode.perExecutive [e]).countP
          (fun t => t.executive == e && t.visit_day == none) + N
        = ts.countP (fun t => t.executive == e) := by
  set updated := ts.map clearDay with hupd
  set EC := updated.enum.filter (fun p => p.2.executive == e) with hECdef
  have hupdcount : updated.countP (fun t => t.executive == e)
      = ts.countP (fun t => t.executive == e) := by
    rw [hupd, List.countP_map]
    rfl
  have hEClen : EC.length = ts.countP (fun t => t.executive == e) := by
    have h := length_filter_enum_snd updated (fun t => t.executive == e)
    rw [hECdef]
    exact h.trans hupdcount
  have hECne : ¬ EC.isEmpty = true := by
    rw [List.isEmpty_iff]
    intro h
    rw [h] at hEClen
    simp at hEClen
    omega
  set sorted := sortByCountDesc EC with hsorted
  set top := sorted.take (min N sorted.length) with htop
  set ordered := optimize_visit_routing dist top e emp with hordered
  have hassign : assign_visit_days dist ts emp N AssignMode.perExecutive [e]
      = applyDays updated ordered 1 := by
    unfold assign_visit_days
    dsimp only
    rw [List.foldl_cons, List.foldl_nil]
    rw [if_neg hECne]
  have hsortperm : sorted.Perm EC := stableSortBy_perm _ _
  have hsortlen : sorted.length = EC.length := hsortperm.length_eq
  have htoplen : top.length = N := by
    rw [htop, List.length_take]
    have : min N sorted.length = N := by
      rw [hsortlen]
      omega
    rw [this]
    rw [hsortlen]
    omega
  have hordperm : ordered.Perm top := optimize_visit_routing_perm _ _ _ _
  have hordlen : ordered.length = N := by
    rw [hordperm.length_eq, htoplen]
  have hsubEC : ∀ p ∈ ordered, p ∈ EC := by
    intro p hp
    exact hsortperm.mem_iff.mp
      (List.mem_of_mem_take (hordperm.mem_iff.mp hp))
  have hmemEnum : ∀ p ∈ ordered, p ∈ updated.enum ∧ p.2.executive = e := by
    intro p hp
    have := List.mem_filter.mp (hsubEC p hp)
    exact ⟨this.1, by simpa using this.2⟩
  have hnodup : (ordered.map Prod.fst).Nodup := by
    have h0 : (updated.enum.map Prod.fst).Nodup := List.nodup_enum_map_fst _
    have h1 : (EC.map Prod.fst).Nodup :=
      ((List.filter_sublist _).map Prod.fst).nodup h0
    have h2 : (sorted.map Prod.fst).Nodup :=
      ((hsortperm.map Prod.fst).nodup_iff).mpr h1
    have h3 : (top.map Prod.fst).Nodup :=
      ((List.take_sublist _ _).map Prod.fst).nodup h2
    exact ((hordperm.map Prod.fst).nodup_iff).mpr h3
  have hbound : ∀ p ∈ ordered, p.1 < updated.length := by
    intro p hp
    exact (enum_mem_getD (hmemEnum p hp).1).1
  have hgetD : ∀ p ∈ ordered, updated.getD p.1 default = p.2 := by
    intro p hp
    exact (enum_mem_getD (hmemEnum p hp).1).2
  have hupdnone : ∀ t ∈ updated, t.visit_day = none := by
    intro t ht
    rcases List.mem_map.mp ht with ⟨t0, -, rfl⟩
    rfl
  have hgetnone : ∀ p ∈ ordered, (updated.getD p.1 default).visit_day = none := by
    intro p hp
    rw [hgetD p hp]
    exact hupdnone p.2 (mem_snd_of_mem_enum (hmemEnum p hp).1)
  have hupdfm : updated.filterMap (fun t => t.visit_day) = [] :=
    List.filterMap_eq_nil_iff.mpr hupdnone
  have hupdlen : updated.length = ts.length := by
    rw [hupd, List.length_map]
  refine ⟨?_, ?_, ?_, ?_⟩
  · rw [hassign, applyDays_length, hupdlen]
  · rw [hassign]
    have h := applyDays_filterMap ordered updated 1 hnodup hbound hgetnone
    rw [hupdfm, List.nil_append, hordlen] at h
    exact h
  · intro t ht hday
    rw [hassign] at ht
    rcases List.mem_iff_getElem.mp ht with ⟨i, hi, heq⟩
    have hilen : i < updated.length := by
      rw [← applyDays_length ordered updated 1]
      exact hi
    have hgetDt : (applyDays updated ordered 1).getD i default = t := by
      rw [List.getD_eq_getElem _ _ hi]
      exact heq
    rcases applyDays_getD ordered updated 1 hnodup hbound with ⟨hunt, hwrt⟩
    by_cases hin : i ∈ ordered.map Prod.fst
    · rcases List.mem_map.mp hin with ⟨p, hp, rfl⟩
      rcases List.mem_iff_get.mp hp with ⟨k, hkeq⟩
      have := hwrt k.1 (by omega)
      rw [show (⟨k.1, by omega⟩ : Fin ordered.length) = k from by ext; rfl] at this
      rw [hkeq] at this
      rw [hgetDt] at this
      have hex : t.executive = (updated.getD p.1 default).executive := by
        rw [this]
      rw [hex, hgetD p hp]
      exact (hmemEnum p hp).2
    · have := hunt i hin
      rw [hgetDt] at this
      have htin : t ∈ updated := by
        rw [this, List.getD_eq_getElem _ _ hilen]
        exact List.getElem_mem _
      exact absurd (hupdnone t htin) hday
  · rw [hassign]
    have hprops : ∀ p ∈ ordered, (updated.getD p.1 default).executive = e
        ∧ (updated.getD p.1 default).visit_day = none := by
      intro p hp
      refine ⟨?_, hgetnone p hp⟩
      rw [hgetD p hp]
      exact (hmemEnum p hp).2
    have h := applyDays_countP_unassigned e ordered updated 1 hnodup hbound hprops
    rw [hordlen] at h
    rw [h]
    have hcongr : updated.countP (fun t => t.executive == e && t.visit_day == none)
        = updated.countP (fun t => t.executive == e) := by
      apply List.countP_congr
      intro t ht
      rw [hupdnone t ht]
      simp
    rw [hcongr, hupdcount]

/-- Witness for `assign_visit_days_per_exec_scoping`: three circles of
executive E1 (one carrying a stale visit_day), top 2 requested. -/
theorem assign_visit_days_per_exec_scoping_witness :
    2 < ([⟨"1", 0, 0, 5, "red", ["a"], 1, "E1", some 9⟩,
          ⟨"2", 1, 0, 5, "red", ["b", "c"], 2, "E1", none⟩,
          ⟨"3", 2, 0, 5, "red", ["d", "e", "f"], 3, "E1", none⟩] :
        List Territory).countP (fun t => t.executive == "E1")
    ∧ ((assign_visit_days (fun _ _ la _ => la)
          [⟨"1", 0, 0, 5, "red", ["a"], 1, "E1", some 9⟩,
            ⟨"2", 1, 0, 5, "red", ["b", "c"], 2, "E1", none⟩,
            ⟨"3", 2, 0, 5, "red", ["d", "e", "f"], 3, "E1", none⟩]
          (some [⟨"E1", 0, 0⟩]) 2 AssignMode.perExecutive ["E1"]).length = 3
      ∧ ((assign_visit_days (fun _ _ la _ => la)
          [⟨"1", 0, 0, 5, "red", ["a"], 1, "E1", some 9⟩,
            ⟨"2", 1, 0, 5, "red", ["b", "c"], 2, "E1", none⟩,
            ⟨"3", 2, 0, 5, "red", ["d", "e", "f"], 3, "E1", none⟩]
          (some [⟨"E1", 0, 0⟩]) 2 AssignMode.perExecutive ["E1"]).filterMap
            (fun t => t.visit_day)).Perm (List.range' 1 2)
      ∧ (∀ t ∈ assign_visit_days (fun _ _ la _ => la)
          [⟨"1", 0, 0, 5, "red", ["a"], 1, "E1", some 9⟩,
            ⟨"2", 1, 0, 5, "red", ["b", "c"], 2, "E1", none⟩,
            ⟨"3", 2, 0, 5, "red", ["d", "e", "f"], 3, "E1", none⟩]
          (some [⟨"E1", 0, 0⟩]) 2 AssignMode.perExecutive ["E1"],
          t.visit_day ≠ none → t.executive = "E1")
      ∧ (assign_visit_days (fun _ _ la _ => la)
          [⟨"1", 0, 0, 5, "red", ["a"], 1, "E1", some 9⟩,
            ⟨"2", 1, 0, 5, "red", ["b", "c"], 2, "E1", none⟩,
            ⟨"3", 2, 0, 5, "red", ["d", "e", "f"], 3, "E1", none⟩]
          (some [⟨"E1", 0, 0⟩]) 2 AssignMode.perExecutive ["E1"]).countP
            (fun t => t.executive == "E1" && t.visit_day == none) + 2
        = ([⟨"1", 0, 0, 5, "red", ["a"], 1, "E1", some 9⟩,
            ⟨"2", 1, 0, 5, "red", ["b", "c"], 2, "E1", none⟩,
            ⟨"3", 2, 0, 5, "red", ["d", "e", "f"], 3, "E1", none⟩] :
          List Territory).countP (fun t => t.executive == "E1")) := by
  have h := assign_visit_days_per_exec_scoping (fun _ _ la _ => la)
    [⟨"1", 0, 0, 5, "red", ["a"], 1, "E1", some 9⟩,
      ⟨"2", 1, 0, 5, "red", ["b", "c"], 2, "E1", none⟩,
      ⟨"3", 2, 0, 5, "red", ["d", "e", "f"], 3, "E1", none⟩]
    (some [⟨"E1", 0, 0⟩]) "E1" 2 (by decide)
  exact ⟨by decide, by rw [h.1]; decide, h.2.1, h.2.2.1, h.2.2.2⟩

/-!
## Heap-instrumented embeddings for the frame-effect claims

Python passes dataframes and dictionaries by reference.  To state that a
function never mutates its caller's objects, the collections are re-embedded
with explicit object identity: a heap is a list of objects, an object
reference is an index into it, and every operation that in pandas/Python
creates a NEW object (`.copy()`, boolean-mask filtering with `reset_index`,
`.iloc[1:]`, `dict.copy()`) appends to the heap, while an in-place
dictionary write (`circle['visit_day'] = d`) is `List.set` at that object's
index.  The pure models above compute the same values; these versions track
which heap cells are written.
-/

/-- Heap version of the flush loop: each `remaining_data.iloc[1:]`
re-assignment allocates a new frame at the end of the heap. -/
def flushHeap (radius : ℚ) (color executive : String) :
    Nat → List (List Merchant) → Nat → Nat → List BeatCircle × List (List Merchant)
  | 0, heap, _, _ => ([], heap)
  | fuel + 1, heap, addr, circleCount =>
    match heap.getD addr [] with
    | [] => ([], heap)
    | m :: rest =>
      let circle : BeatCircle :=
        { name := toString (circleCount + 1), center_lat := m.lat,
          center_lon := m.lon, radius := radius, color := color,
          merchants := [m.code], merchant_count := 1, executive := executive }
      let heap1 := heap ++ [rest]
      let res := flushHeap radius color executive fuel heap1 heap.length
        (circleCount + 1)
      (circle :: res.1, res.2)

/-- Heap version of the covering loop: the frame at `remAddr` is the current
`remaining_data`; the filtered re-assignment of source line 396 allocates a
new frame.  No operation writes to an existing heap cell. -/
def coverLoopHeap (dist : GeoDist) (selectCenter : CenterSelector) (radius : ℚ)
    (maxPer : Nat) (color executive : String) :
    Nat → List (List Merchant) → Nat → Nat → List BeatCircle × List (List Merchant)
  | 0, heap, _, _ => ([], heap)
  | fuel + 1, heap, remAddr, circleCount =>
    match heap.getD remAddr [] with
    | [] => ([], heap)
    | first :: rest =>
      let st2 := coverSelect dist selectCenter radius maxPer first rest
      let circle : BeatCircle :=
        { name := toString (circleCount + 1), center_lat := st2.2.1,
          center_lon := st2.2.2, radius := radius, color := color,
          merchants := st2.1, merchant_count := st2.1.length,
          executive := executive }
      let remaining2 := (first :: rest).filter (fun m => !(st2.1.contains m.code))
      let heap1 := heap ++ [remaining2]
      if circleCount + 1 > 100 then
        let res := flushHeap radius color executive remaining2.length heap1
          heap.length (circleCount + 1)
        (circle :: res.1, res.2)
      else
        let res := coverLoopHeap dist selectCenter radius maxPer color executive
          fuel heap1 heap.length (circleCount + 1)
        (circle :: res.1, res.2)

/-- Heap version of `_create_circles_optimized`: the caller's dataframe
lives at `addr`; `merchant_data.copy().reset_index(drop=True)` allocates the
working copy, and the loop runs on the copy. -/
def create_circles_optimized_heap (dist : GeoDist) (selectCenter : CenterSelector)
    (heap : List (List Merchant)) (addr : Nat) (radius_meters : ℚ)
    (max_merchants_per_circle : Nat) (color executive : String) :
    List BeatCircle × List (List Merchant) :=
  let data := heap.getD addr []
  let heap1 := heap ++ [data]
  coverLoopHeap dist selectCenter radius_meters max_merchants_per_circle color
    executive data.length heap1 heap.length 0

theorem flushHeap_extends (radius : ℚ) (color executive : String) :
    ∀ (fuel : Nat) (heap : List (List Merchant)) (addr count : Nat),
      ∃ ext, (flushHeap radius color executive fuel heap addr count).2
        = heap ++ ext := by
  intro fuel
  induction fuel with
  | zero => intro heap addr count; exact ⟨[], by simp [flushHeap]⟩
  | succ fuel ih =>
    intro heap addr count
    rw [flushHeap]
    split
    · exact ⟨[], by simp⟩
    · next m rest heq =>
      rcases ih (heap ++ [rest]) heap.length (count + 1) with ⟨ext, hext⟩
      exact ⟨[rest] ++ ext, by rw [hext, List.append_assoc]⟩

theorem coverLoopHeap_extends (dist : GeoDist) (sel : CenterSelector)
    (radius : ℚ) (maxPer : Nat) (color executive : String) :
    ∀ (fuel : Nat) (heap : List (List Merchant)) (remAddr count : Nat),
      ∃ ext, (coverLoopHeap dist sel radius maxPer color executive fuel heap
        remAddr count).2 = heap ++ ext := by
  intro fuel
  induction fuel with
  | zero => intro heap remAddr count; exact ⟨[], by simp [coverLoopHeap]⟩
  | succ fuel ih =>
    intro heap remAddr count
    rw [coverLoopHeap]
    split
    · exact ⟨[], by simp⟩
    · next first rest heq =>
      set r2 := (first :: rest).filter
        (fun m => !((coverSelect dist sel radius maxPer first rest).1.contains
          m.code)) with hr2
      split
      · rcases flushHeap_extends radius color executive r2.length (heap ++ [r2])
          heap.length (count + 1) with ⟨ext, hext⟩
        exact ⟨[r2] ++ ext, by rw [hext, List.append_assoc]⟩
      · rcases ih (heap ++ [r2]) heap.length (count + 1) with ⟨ext, hext⟩
        exact ⟨[r2] ++ ext, by rw [hext, List.append_assoc]⟩

theorem flushHeap_fst (radius : ℚ) (color executive : String) :
    ∀ (fuel : Nat) (heap : List (List Merchant)) (addr count : Nat)
      (l : List Merchant),
      heap.getD addr [] = l → l.length ≤ fuel →
      (flushHeap radius color executive fuel heap addr count).1
        = flushSingles radius color executive l count := by
  intro fuel
  induction fuel with
  | zero =>
    intro heap addr count l hl hlen
    rw [List.length_eq_zero.mp (Nat.le_zero.mp hlen)] at hl ⊢
    rfl
  | succ fuel ih =>
    intro heap addr count l hl hlen
    rw [flushHeap, hl]
    cases l with
    | nil => rfl
    | cons m rest =>
      dsimp only
      rw [flushSingles]
      congr 1
      apply ih (heap ++ [rest]) heap.length (count + 1) rest
      · rw [List.getD_eq_getElem _ _ (by simp)]
        exact List.getElem_concat_length heap rest heap.length rfl _
      · simp only [List.length_cons] at hlen
        omega

theorem coverLoopHeap_fst (dist : GeoDist) (sel : CenterSelector) (radius : ℚ)
    (maxPer : Nat) (color executive : String) :
    ∀ (fuel : Nat) (heap : List (List Merchant)) (remAddr count : Nat)
      (l : List Merchant),
      heap.getD remAddr [] = l →
      (coverLoopHeap dist sel radius maxPer color executive fuel heap remAddr
        count).1
        = coverLoop dist sel radius maxPer color executive fuel l count := by
  intro fuel
  induction fuel with
  | zero =>
    intro heap remAddr count l hl
    rfl
  | succ fuel ih =>
    intro heap remAddr count l hl
    rw [coverLoopHeap, hl]
    cases l with
    | nil => rfl
    | cons first rest =>
      dsimp only
      rw [coverLoop]
      set r2 := (first :: rest).filter
        (fun m => !((coverSelect dist sel radius maxPer first rest).1.contains
          m.code)) with hr2
      have hget : (heap ++ [r2]).getD heap.length [] = r2 := by
        rw [List.getD_eq_getElem _ _ (by simp)]
        exact List.getElem_concat_length heap r2 heap.length rfl _
      split
      · show _ = _ :: _
        dsimp only
        congr 1
        exact flushHeap_fst radius color executive r2.length (heap ++ [r2])
          heap.length (count + 1) r2 hget (le_refl _)
      · show _ = _ :: _
        dsimp only
        congr 1
        exact ih (heap ++ [r2]) heap.length (count + 1) r2 hget

/-- C9: `_create_circles_optimized` never mutates the caller's collection.
In the heap-instrumented embedding (where every pandas operation that
creates a new frame allocates, and nothing writes an existing cell), the
final heap extends the initial one unchanged: the caller's dataframe at
`addr` — and every other pre-existing object — has the same contents, order
and length after the call, and the returned circles are exactly those of
the value-level model applied to the frame's contents. -/
theorem cover_no_mutation (dist : GeoDist) (sel : CenterSelector)
    (heap : List (List Merchant)) (addr : Nat) (radius : ℚ) (maxPer : Nat)
    (color executive : String) :
    ((create_circles_optimized_heap dist sel heap addr radius maxPer color
        executive).2).take heap.length = heap
    ∧ (∀ i, i < heap.length →
        (create_circles_optimized_heap dist sel heap addr radius maxPer color
          executive).2.getD i [] = heap.getD i [])
    ∧ (create_circles_optimized_heap dist sel heap addr radius maxPer color
          executive).1
        = create_circles_optimized dist sel (heap.getD addr []) radius maxPer
            color executive := by
  have hext : ∃ ext, (create_circles_optimized_heap dist sel heap addr radius
      maxPer color executive).2 = heap ++ ext := by
    unfold create_circles_optimized_heap
    rcases coverLoopHeap_extends dist sel radius maxPer color executive
      (heap.getD addr []).length (heap ++ [heap.getD addr []]) heap.length 0
      with ⟨ext, hext⟩
    exact ⟨[heap.getD addr []] ++ ext, by rw [hext, List.append_assoc]⟩
  rcases hext with ⟨ext, hext⟩
  refine ⟨?_, ?_, ?_⟩
  · rw [hext]
    exact List.take_left heap ext
  · intro i hi
    rw [hext]
    exact List.getD_append heap ext [] i hi
  · unfold create_circles_optimized_heap create_circles_optimized
    apply coverLoopHeap_fst
    rw [List.getD_eq_getElem _ _ (by simp)]
    exact List.getElem_concat_length heap _ heap.length rfl _

/-- Heap version of `_optimize_visit_routing`: the circle list is a list of
object references (heap indices); centers are read through the heap. -/
def optimize_visit_routing_heap (dist : GeoDist) (h : List Territory)
    (circles : List Nat) (exec_id : String) (emp : Option (List Employee)) :
    List Nat :=
  if circles.length ≤ 1 then circles
  else
    let startLoc : ℚ × ℚ :=
      match emp with
      | some ed =>
        match ed.find? (fun r => r.emp_id == exec_id) with
        | some r => (r.emp_latitude, r.emp_longitude)
        | none =>
          ((circles.map (fun a => (h.getD a default).center_lat)).sum
              / circles.length,
            (circles.map (fun a => (h.getD a default).center_lon)).sum
              / circles.length)
      | none =>
        ((circles.map (fun a => (h.getD a default).center_lat)).sum
            / circles.length,
          (circles.map (fun a => (h.getD a default).center_lon)).sum
            / circles.length)
    nearest_neighbor_routing dist (fun a => (h.getD a default).center_lat)
      (fun a => (h.getD a default).center_lon) circles startLoc.1 startLoc.2

/-- The in-place `circle['visit_day'] = day_num` writes, as heap updates at
the written objects' addresses. -/
def applyDaysHeap : List Territory → List Nat → Nat → List Territory
  | h, [], _ => h
  | h, a :: rest, day =>
      applyDaysHeap (h.set a { h.getD a default with visit_day := some day })
        rest (day + 1)

/-- Heap version of `assign_visit_days`: the caller's territory list is the
address list `addrs` into `heap`; `territory.copy()` (with the `visit_day`
key deleted) allocates a fresh object per territory, the updated list holds
only those fresh addresses, and every later write targets them. -/
def assign_visit_days_heap (dist : GeoDist) (heap : List Territory)
    (addrs : List Nat) (employee_data : Option (List Employee))
    (top_count : Nat) (assignment_mode : AssignMode)
    (selected_executives : List String) : List Nat × List Territory :=
  let base := heap.length
  let heap1 := heap ++ addrs.map (fun a => clearDay (heap.getD a default))
  let updatedAddrs := List.range' base addrs.length
  match assignment_mode with
  | .perExecutive =>
    (updatedAddrs,
      selected_executives.foldl (fun h exec_id =>
        let exec_addrs := updatedAddrs.filter
          (fun a => (h.getD a default).executive == exec_id)
        if exec_addrs.isEmpty then h
        else
          let sorted := stableSortBy (fun a b =>
            decide ((h.getD b default).merchant_count
              ≤ (h.getD a default).merchant_count)) exec_addrs
          let top := sorted.take (min top_count sorted.length)
          let ordered := optimize_visit_routing_heap dist h top exec_id
            employee_data
          applyDaysHeap h ordered 1) heap1)
  | .globalRanking =>
    let all_exec := selected_executives.foldl (fun acc exec_id =>
        acc ++ updatedAddrs.filter
          (fun a => (heap1.getD a default).executive == exec_id)) []
    if all_exec.isEmpty then (updatedAddrs, heap1)
    else
      let sorted := stableSortBy (fun a b =>
        decide ((heap1.getD b default).merchant_count
          ≤ (heap1.getD a default).merchant_count)) all_exec
      let top := sorted.take (min top_count sorted.length)
      let keys := dedupFirst (top.map (fun a => (heap1.getD a default).executive))
      (updatedAddrs,
        (keys.foldl (fun (st : List Territory × Nat) key =>
          let group := top.filter
            (fun a => (heap1.getD a default).executive == key)
          let ordered := optimize_visit_routing_heap dist st.1 group key
            employee_data
          (applyDaysHeap st.1 ordered st.2, st.2 + ordered.length))
          (heap1, 1)).1)

theorem take_set_of_le (l : List Territory) (a : Nat) (v : Territory)
    (b : Nat) (hba : b ≤ a) : (l.set a v).take b = l.take b := by
  apply List.ext_getElem
  · rw [List.length_take, List.length_take, List.length_set]
  · intro i h1 h2
    have hib : i < b := by
      rw [List.length_take] at h1
      omega
    rw [List.getElem_take, List.getElem_take]
    exact List.getElem_set_ne (by omega) _

theorem applyDaysHeap_take (b : Nat) :
    ∀ (ordered : List Nat) (h : List Territory) (day : Nat),
      (∀ a ∈ ordered, b ≤ a) →
      (applyDaysHeap h ordered day).take b = h.take b := by
  intro ordered
  induction ordered with
  | nil => intro h day _; rfl
  | cons a rest ih =>
    intro h day hge
    rw [applyDaysHeap]
    rw [ih _ (day + 1) (fun q hq => hge q (List.mem_cons_of_mem _ hq))]
    exact take_set_of_le h a _ b (hge a (List.mem_cons_self _ _))

theorem optimize_visit_routing_heap_perm (dist : GeoDist) (h : List Territory)
    (circles : List Nat) (exec_id : String) (emp : Option (List Employee)) :
    (optimize_visit_routing_heap dist h circles exec_id emp).Perm circles := by
  unfold optimize_visit_routing_heap
  split
  · exact List.Perm.refl _
  · exact nearest_neighbor_routing_perm dist _ _ circles _ _

theorem foldl_take_of_step (F : List Territory → String → List Territory)
    (b : Nat) (hF : ∀ h e, (F h e).take b = h.take b) :
    ∀ (sel : List String) (h : List Territory),
      (sel.foldl F h).take b = h.take b := by
  intro sel
  induction sel with
  | nil => intro h; rfl
  | cons e es ih =>
    intro h
    rw [List.foldl_cons, ih (F h e), hF h e]

theorem foldl_pair_take_of_step
    (G : List Territory × Nat → String → List Territory × Nat) (b : Nat)
    (hG : ∀ st k, ((G st k).1).take b = (st.1).take b) :
    ∀ (keys : List String) (st : List Territory × Nat),
      ((keys.foldl G st).1).take b = (st.1).take b := by
  intro keys
  induction keys with
  | nil => intro st; rfl
  | cons k ks ih =>
    intro st
    rw [List.foldl_cons, ih (G st k), hG st k]

theorem foldl_append_filter_mem (updatedAddrs : List Nat)
    (q : Nat → String → Bool) :
    ∀ (sel : List String) (acc : List Nat) (a : Nat),
      a ∈ sel.foldl (fun acc2 exec_id =>
        acc2 ++ updatedAddrs.filter (fun x => q x exec_id)) acc →
      a ∈ acc ∨ a ∈ updatedAddrs := by
  intro sel
  induction sel with
  | nil => intro acc a ha; exact Or.inl ha
  | cons e es ih =>
    intro acc a ha
    rw [List.foldl_cons] at ha
    rcases ih _ a ha with h | h
    · rcases List.mem_append.mp h with h' | h'
      · exact Or.inl h'
      · exact Or.inr (List.mem_filter.mp h').1
    · exact Or.inr h

theorem getD_eq_of_take_eq :
    ∀ (r heap : List Territory), r.take heap.length = heap →
      ∀ i, i < heap.length → r.getD i default = heap.getD i default := by
  intro r heap h i hi
  have hlen : heap.length ≤ r.length := by
    have hl := congrArg List.length h
    rw [List.length_take] at hl
    omega
  have h1 : (r.take heap.length).getD i default = r.getD i default := by
    rw [List.getD_eq_getElem (r.take heap.length) default
        (show i < (r.take heap.length).length by rw [List.length_take]; omega),
      List.getD_eq_getElem r default (show i < r.length by omega)]
    exact List.getElem_take r
  rw [← h1, h]

/-- C10: `assign_visit_days` never mutates any dictionary of its input
territories list.  In the heap-instrumented embedding, where
`territory.copy()` allocates a fresh object per input territory and every
`visit_day` write targets an address of the fresh-copy range, the heap
prefix holding the caller's objects is unchanged after the call (both
modes), and the returned list references only the fresh copies. -/
theorem assign_visit_days_no_mutation (dist : GeoDist) (heap : List Territory)
    (addrs : List Nat) (emp : Option (List Employee)) (topc : Nat)
    (mode : AssignMode) (selected : List String) :
    ((assign_visit_days_heap dist heap addrs emp topc mode selected).2).take
        heap.length = heap
    ∧ (∀ i, i < heap.length →
        (assign_visit_days_heap dist heap addrs emp topc mode
          selected).2.getD i default = heap.getD i default)
    ∧ (assign_visit_days_heap dist heap addrs emp topc mode selected).1
        = List.range' heap.length addrs.length := by
  have hrange : ∀ a ∈ List.range' heap.length addrs.length, heap.length ≤ a := by
    intro a ha
    rcases List.mem_range'.mp ha with ⟨i, hi, rfl⟩
    omega
  have htake1 : (heap ++ addrs.map (fun a => clearDay (heap.getD a default))).take
      heap.length = heap := List.take_left _ _
  have htake : ((assign_visit_days_heap dist heap addrs emp topc mode
      selected).2).take heap.length = heap := by
    cases mode with
    | perExecutive =>
      unfold assign_visit_days_heap
      dsimp only
      refine Eq.trans (foldl_take_of_step _ heap.length ?_ selected _) htake1
      intro h e
      dsimp only
      split
      · rfl
      · apply applyDaysHeap_take
        intro a ha
        have h2 := (optimize_visit_routing_heap_perm dist h _ e emp).mem_iff.mp ha
        have h3 := List.mem_of_mem_take h2
        have h4 := (stableSortBy_perm _ _).mem_iff.mp h3
        have h5 := (List.mem_filter.mp h4).1
        exact hrange a h5
    | globalRanking =>
      unfold assign_visit_days_heap
      dsimp only
      split
      · exact htake1
      · next hne =>
        refine Eq.trans (foldl_pair_take_of_step _ heap.length ?_ _ _) htake1
        intro st k
        dsimp only
        apply applyDaysHeap_take
        intro a ha
        have h2 := (optimize_visit_routing_heap_perm dist st.1 _ k emp).mem_iff.mp ha
        have h3 := (List.mem_filter.mp h2).1
        have h4 := List.mem_of_mem_take h3
        have h5 := (stableSortBy_perm _ _).mem_iff.mp h4
        rcases foldl_append_filter_mem (List.range' heap.length addrs.length)
          (fun x exec_id =>
            ((heap ++ addrs.map (fun a => clearDay (heap.getD a
              default))).getD x default).executive == exec_id)
          selected [] a h5 with h6 | h6
        · simp at h6
        · exact hrange a h6
  refine ⟨htake, getD_eq_of_take_eq _ _ htake, ?_⟩
  cases mode with
  | perExecutive => rfl
  | globalRanking =>
    unfold assign_visit_days_heap
    dsimp only
    split <;> rfl
